import Mathlib

/-!
Shallow embedding, in Lean 4, of the file-backed JSON document store
implemented in `src/main.go` (package `main`: `Driver`, `Write`, `Read`,
`ReadAll`, `Delete`, `getOrCreateMutex`, `stat`), together with models of
the parts of the Go standard library the code calls:
`path/filepath.Clean` / `Join`, the `os` filesystem operations
(`Stat`, `MkdirAll`, `WriteFile`, `ReadFile`, `ReadDir`, `Rename`,
`RemoveAll`), and `encoding/json.MarshalIndent` / `Unmarshal`.

Paths are modelled as slash-separated strings exactly as Go manipulates
them; the filesystem is an association list from (cleaned) path strings to
entries, plus a list of paths on which `os.Stat`-like calls fail with a
permission error (modelling EACCES, which `os.IsNotExist` does not match).
JSON values are modelled as a tree (`GoVal`), with one extra constructor
`unsupported` standing for Go values `encoding/json` cannot encode
(channels, functions, NaN, ...).
-/

namespace GoDB

/-! ## Path layer: `path/filepath.Clean` and `filepath.Join` -/

/-- Characters of a slash-separated path, split at every slash into
components, as `filepath.Clean` views a path.  `splitSlash []` is
`[[]]` (the empty path has one empty component). -/
def splitSlash : List Char → List (List Char)
  | [] => [[]]
  | c :: cs =>
    if c = '/' then [] :: splitSlash cs
    else
      match splitSlash cs with
      | [] => [[c]]
      | r :: rs => (c :: r) :: rs

/-- Inverse of `splitSlash`: interleave components with slashes. -/
def joinSlash : List (List Char) → List Char
  | [] => []
  | [a] => a
  | a :: b :: rest => a ++ '/' :: joinSlash (b :: rest)

theorem splitSlash_ne_nil (cs : List Char) : splitSlash cs ≠ [] := by
  induction cs with
  | nil => simp [splitSlash]
  | cons c cs ih =>
    simp only [splitSlash]
    split
    · simp
    · cases h : splitSlash cs with
      | nil => simp
      | cons r rs => simp

theorem joinSlash_splitSlash (cs : List Char) : joinSlash (splitSlash cs) = cs := by
  induction cs with
  | nil => rfl
  | cons c cs ih =>
    simp only [splitSlash]
    split
    · rename_i h
      subst h
      cases h' : splitSlash cs with
      | nil => exact absurd h' (splitSlash_ne_nil cs)
      | cons r rs =>
        rw [h'] at ih
        simp [joinSlash, ih]
    · cases h' : splitSlash cs with
      | nil => exact absurd h' (splitSlash_ne_nil cs)
      | cons r rs =>
        rw [h'] at ih
        cases rs with
        | nil => simp [joinSlash] at ih ⊢; simp [ih]
        | cons b rest => simp [joinSlash] at ih ⊢; simp [ih]

theorem splitSlash_append (a b : List Char) :
    splitSlash (a ++ '/' :: b) = splitSlash a ++ splitSlash b := by
  induction a with
  | nil => simp [splitSlash]
  | cons c cs ih =>
    simp only [List.cons_append, splitSlash]
    split
    · simp [ih]
    · simp only [List.append_eq]
      rw [ih]
      cases h' : splitSlash cs with
      | nil => exact absurd h' (splitSlash_ne_nil cs)
      | cons r rs => simp

/-- A path component with no slash inside splits into itself alone. -/
theorem splitSlash_eq_single {c : List Char} (h : '/' ∉ c) : splitSlash c = [c] := by
  induction c with
  | nil => rfl
  | cons x xs ih =>
    simp only [splitSlash]
    rw [if_neg (by simp at h; exact fun hx => h.1 hx.symm)]
    rw [ih (by simp at h; exact h.2)]

theorem joinSlash_append_single (l : List (List Char)) (x : List Char) :
    joinSlash (l ++ [x]) = match l with
      | [] => x
      | _ :: _ => joinSlash l ++ '/' :: x := by
  induction l with
  | nil => rfl
  | cons a l ih =>
    cases l with
    | nil => simp [joinSlash]
    | cons b rest =>
      simp only [List.cons_append, joinSlash, List.append_eq] at ih ⊢
      rw [ih]
      simp

/-- If every component is slash-free, splitting the joined path returns the
components (the list must be nonempty). -/
theorem splitSlash_joinSlash {l : List (List Char)} (hne : l ≠ [])
    (h : ∀ c ∈ l, '/' ∉ c) : splitSlash (joinSlash l) = l := by
  induction l with
  | nil => exact absurd rfl hne
  | cons a l ih =>
    cases l with
    | nil => simpa [joinSlash] using splitSlash_eq_single (h a (by simp))
    | cons b rest =>
      have : joinSlash (a :: b :: rest) = a ++ '/' :: joinSlash (b :: rest) := rfl
      rw [this, splitSlash_append, splitSlash_eq_single (h a (by simp))]
      rw [ih (by simp) (fun c hc => h c (by simp [hc]))]
      rfl

/-- Effect of a `..` component on the clean stack (top of stack at the
head): pop a simple segment, keep accumulating `..` on a relative path,
drop it at the root of a rooted path.  Mirrors `path/filepath.Clean`. -/
def popDotDot (abs : Bool) (stk : List (List Char)) : List (List Char) :=
  match stk with
  | [] => if abs then [] else [['.', '.']]
  | top :: stk' => if top = ['.', '.'] then ['.', '.'] :: top :: stk' else stk'

/-- `filepath.Clean`'s element-processing loop: the stack of kept
components (top of stack at the head); the flag says whether the path is
rooted. -/
def cleanStack (abs : Bool) : List (List Char) → List (List Char) → List (List Char)
  | stk, [] => stk
  | stk, c :: rest =>
    if c = [] ∨ c = ['.'] then cleanStack abs stk rest
    else if c = ['.', '.'] then cleanStack abs (popDotDot abs stk) rest
    else cleanStack abs (c :: stk) rest

/-- Shallow embedding of Go's `path/filepath.Clean` for slash-separated
paths: drop empty and `.` components, resolve `..`, render the result
(`.` for an emptied relative path, `/` for an emptied rooted path). -/
def clean (s : String) : String :=
  if s.data = [] then "."
  else if s.data.head? = some '/' then
    String.mk ('/' :: joinSlash (cleanStack true [] (splitSlash s.data)).reverse)
  else if cleanStack false [] (splitSlash s.data) = [] then "."
  else String.mk (joinSlash (cleanStack false [] (splitSlash s.data)).reverse)

/-- Shallow embedding of Go's `path/filepath.Join`: drop empty elements,
join the rest with slashes, and `Clean` the result; all-empty input gives
the empty string. -/
def goJoin (elems : List String) : String :=
  let ne := elems.filter (fun e => e ≠ "")
  if ne = [] then "" else clean (String.mk (joinSlash (ne.map String.data)))

/-- `filepath.Join(a, b)`. -/
def join2 (a b : String) : String := goJoin [a, b]

/-- `filepath.Join(a, b, c)`. -/
def join3 (a b c : String) : String := goJoin [a, b, c]

/-! ### Normal paths

A *simple segment* is a path component that `Clean` keeps untouched:
nonempty, not `.` or `..`, and slash-free.  A *normal path* is a nonempty
relative path all of whose components are simple; `Clean` fixes such
paths.  Record and collection names that are simple segments address
files literally at `<root>/<collection>/<name>.json`. -/

/-- A path component kept verbatim by `filepath.Clean`. -/
def SimpleSeg (c : List Char) : Prop :=
  c ≠ [] ∧ c ≠ ['.'] ∧ c ≠ ['.', '.'] ∧ '/' ∉ c

instance (c : List Char) : Decidable (SimpleSeg c) := by
  unfold SimpleSeg; infer_instance

/-- A nonempty relative path whose components are all simple segments. -/
def NormalPath (s : String) : Prop :=
  ∀ c ∈ splitSlash s.data, SimpleSeg c

instance (s : String) : Decidable (NormalPath s) := by
  unfold NormalPath; infer_instance

theorem mk_data_eq (s : String) : String.mk s.data = s := rfl

theorem mk_eq_empty_iff (l : List Char) : String.mk l = "" ↔ l = [] := by
  constructor
  · intro h
    have : (String.mk l).data = ("" : String).data := by rw [h]
    simpa using this
  · intro h; rw [h]

theorem normalPath_ne_empty {p : String} (h : NormalPath p) : p ≠ "" := by
  intro he
  have h0 : ([] : List Char) ∈ splitSlash p.data := by
    have : p.data = [] := by rw [he]
    rw [this]; simp [splitSlash]
  exact (h [] h0).1 rfl

theorem normalPath_head {p : String} (h : NormalPath p) :
    p.data.head? ≠ some '/' := by
  intro hh
  cases hd : p.data with
  | nil => rw [hd] at hh; simp at hh
  | cons c cs =>
    rw [hd] at hh
    simp at hh
    subst hh
    have h0 : ([] : List Char) ∈ splitSlash p.data := by
      rw [hd]; simp [splitSlash]
    exact (h [] h0).1 rfl

theorem normalPath_data_ne_nil {p : String} (h : NormalPath p) : p.data ≠ [] := by
  intro he
  exact normalPath_ne_empty h (by cases p with | mk d => simp at he; simp [he])

theorem simpleSeg_normalPath {x : List Char} (hx : SimpleSeg x) :
    NormalPath (String.mk x) := by
  intro c hc
  rw [show (String.mk x).data = x from rfl, splitSlash_eq_single hx.2.2.2] at hc
  simp at hc
  rwa [hc]

theorem normalPath_append_seg {p : String} {x : List Char}
    (hp : NormalPath p) (hx : SimpleSeg x) :
    NormalPath (String.mk (p.data ++ '/' :: x)) := by
  intro c hc
  rw [show (String.mk (p.data ++ '/' :: x)).data = p.data ++ '/' :: x from rfl,
    splitSlash_append, splitSlash_eq_single hx.2.2.2] at hc
  rcases List.mem_append.mp hc with h | h
  · exact hp c h
  · simp at h; rwa [h]

/-- Pushing a simple segment onto the clean stack. -/
theorem cleanStack_simple_push {c : List Char} (hc : SimpleSeg c)
    (abs : Bool) (stk : List (List Char)) (rest : List (List Char)) :
    cleanStack abs stk (c :: rest) = cleanStack abs (c :: stk) rest := by
  obtain ⟨h1, h2, h3, _⟩ := hc
  simp [cleanStack, h1, h2, h3]

theorem cleanStack_append (abs : Bool) (l1 l2 : List (List Char)) :
    ∀ stk, cleanStack abs stk (l1 ++ l2) = cleanStack abs (cleanStack abs stk l1) l2 := by
  induction l1 with
  | nil => intro stk; rfl
  | cons c l1 ih =>
    intro stk
    simp only [List.cons_append, cleanStack]
    split
    · exact ih stk
    · split
      · exact ih _
      · exact ih _

theorem cleanStack_all_simple {l : List (List Char)} (h : ∀ c ∈ l, SimpleSeg c)
    (abs : Bool) : ∀ stk, cleanStack abs stk l = l.reverse ++ stk := by
  induction l with
  | nil => intro stk; rfl
  | cons c l ih =>
    intro stk
    rw [cleanStack_simple_push (h c (by simp)) abs stk l,
      ih (fun d hd => h d (by simp [hd])) (c :: stk)]
    simp

/-- Invariant of the clean stack for relative paths: simple segments on
top of a run of `..` segments. -/
def RedStack (stk : List (List Char)) : Prop :=
  ∃ a k, stk = a ++ List.replicate k ['.', '.'] ∧ ∀ c ∈ a, SimpleSeg c

theorem redStack_nil : RedStack [] := ⟨[], 0, rfl, by simp⟩

theorem redStack_elem {stk : List (List Char)} (h : RedStack stk) :
    ∀ c ∈ stk, c ≠ [] ∧ '/' ∉ c := by
  obtain ⟨a, k, rfl, ha⟩ := h
  intro c hc
  rcases List.mem_append.mp hc with h | h
  · exact ⟨(ha c h).1, (ha c h).2.2.2⟩
  · rw [List.eq_of_mem_replicate h]
    constructor
    · simp
    · simp

/-- Components produced by `splitSlash` are slash-free. -/
theorem splitSlash_no_slash (cs : List Char) : ∀ c ∈ splitSlash cs, '/' ∉ c := by
  induction cs with
  | nil => intro c hc; simp [splitSlash] at hc; simp [hc]
  | cons x xs ih =>
    intro c hc
    simp only [splitSlash] at hc
    split at hc
    · rcases List.mem_cons.mp hc with h | h
      · simp [h]
      · exact ih c h
    · rename_i hx
      cases h' : splitSlash xs with
      | nil => exact absurd h' (splitSlash_ne_nil xs)
      | cons r rs =>
        rw [h'] at hc
        rcases List.mem_cons.mp hc with h | h
        · subst h
          intro hm
          rcases List.mem_cons.mp hm with h | h
          · exact hx h.symm
          · exact ih r (by rw [h']; simp) h
        · exact ih c (by rw [h']; simp [h])

theorem redStack_popDotDot {stk : List (List Char)} (h : RedStack stk) :
    RedStack (popDotDot false stk) := by
  cases stk with
  | nil =>
    exact ⟨[], 1, by simp [popDotDot], by simp⟩
  | cons top stk' =>
    obtain ⟨a, k, heq, ha⟩ := h
    by_cases htop : top = ['.', '.']
    · simp only [popDotDot, htop, if_pos]
      have hank : a = [] := by
        cases a with
        | nil => rfl
        | cons a0 arest =>
          simp at heq
          exact absurd (heq.1 ▸ htop) (fun hf => (ha a0 (by simp)).2.2.1 hf)
      subst hank
      simp at heq
      refine ⟨[], k + 1, ?_, by simp⟩
      cases k with
      | zero => simp at heq
      | succ k' =>
        simp [List.replicate_succ] at heq
        simp [List.replicate_succ, heq.1, heq.2, htop]
    · simp only [popDotDot, htop, if_neg, if_false]
      cases a with
      | nil =>
        exfalso
        cases k with
        | zero => simp at heq
        | succ k' =>
          simp [List.replicate_succ] at heq
          exact htop heq.1
      | cons a0 arest =>
        simp at heq
        exact ⟨arest, k, heq.2, fun d hd => ha d (by simp [hd])⟩

theorem redStack_cleanStack {l : List (List Char)} (hl : ∀ c ∈ l, '/' ∉ c) :
    ∀ stk, RedStack stk → RedStack (cleanStack false stk l) := by
  induction l with
  | nil => intro stk h; exact h
  | cons c l ih =>
    have ihl : ∀ d ∈ l, '/' ∉ d := fun d hd => hl d (by simp [hd])
    have ih := ih ihl
    intro stk h
    simp only [cleanStack]
    split
    · exact ih stk h
    · split
      · exact ih _ (redStack_popDotDot h)
      · rename_i hne hdd
        refine ih _ ?_
        obtain ⟨a, k, heq, ha⟩ := h
        refine ⟨c :: a, k, by simp [heq], ?_⟩
        intro d hd
        rcases List.mem_cons.mp hd with h | h
        · subst h
          rcases (not_or.mp hne) with ⟨h1, h2⟩
          exact ⟨h1, h2, hdd, hl d (by simp)⟩
        · exact ha d h

theorem popDotDot_replicate (j : Nat) :
    popDotDot false (List.replicate j ['.', '.']) = List.replicate (j + 1) ['.', '.'] := by
  cases j with
  | zero => simp [popDotDot]
  | succ j' => simp [popDotDot, List.replicate_succ]

theorem cleanStack_replicate (k : Nat) :
    ∀ j, cleanStack false (List.replicate j ['.', '.']) (List.replicate k ['.', '.']) =
      List.replicate (k + j) ['.', '.'] := by
  induction k with
  | zero => intro j; simp [cleanStack]
  | succ k ih =>
    intro j
    rw [List.replicate_succ, cleanStack]
    simp only [show ¬((['.', '.'] : List Char) = [] ∨ (['.', '.'] : List Char) = ['.']) by simp,
      if_neg, if_pos, if_true, reduceIte]
    rw [popDotDot_replicate j, ih (j + 1)]
    congr 1
    omega

/-- Replaying an already-reduced stack (bottom component first) rebuilds
exactly that stack. -/
theorem cleanStack_replay {stk : List (List Char)} (h : RedStack stk) :
    cleanStack false [] stk.reverse = stk := by
  obtain ⟨a, k, rfl, ha⟩ := h
  rw [List.reverse_append, List.reverse_replicate,
    cleanStack_append false (List.replicate k ['.', '.']) a.reverse []]
  have h1 : cleanStack false [] (List.replicate k ['.', '.']) = List.replicate k ['.', '.'] := by
    have := cleanStack_replicate k 0
    simpa using this
  rw [h1, cleanStack_all_simple (fun c hc => ha c (List.mem_reverse.mp hc)) false]
  simp

theorem head?_append_of_ne_nil {l1 l2 : List Char} (h : l1 ≠ []) :
    (l1 ++ l2).head? = l1.head? := by
  cases l1 with
  | nil => exact absurd rfl h
  | cons c cs => rfl

theorem joinSlash_ne_nil {e : List Char} (l : List (List Char)) (he : e ≠ []) :
    joinSlash (e :: l) ≠ [] := by
  cases l with
  | nil => exact he
  | cons b rest => simp [joinSlash]

theorem joinSlash_head? {e : List Char} (l : List (List Char)) (he : e ≠ []) :
    (joinSlash (e :: l)).head? = e.head? := by
  cases l with
  | nil => rfl
  | cons b rest =>
    show (e ++ '/' :: joinSlash (b :: rest)).head? = e.head?
    exact head?_append_of_ne_nil he

/-- The central computation: cleaning `q ++ "/" ++ x` for a simple final
segment `x` renders the reduced stack of `q` with `x` on top. -/
theorem clean_mk_append_seg {q x : List Char} (hq : q ≠ [])
    (hqh : q.head? ≠ some '/') (hx : SimpleSeg x) :
    clean (String.mk (q ++ '/' :: x)) =
      if cleanStack false [] (splitSlash q) = [] then String.mk x
      else String.mk (joinSlash (cleanStack false [] (splitSlash q)).reverse ++ '/' :: x) := by
  have hdata : (String.mk (q ++ '/' :: x)).data = q ++ '/' :: x := rfl
  have hstack : cleanStack false [] (splitSlash (q ++ '/' :: x)) =
      x :: cleanStack false [] (splitSlash q) := by
    rw [splitSlash_append, splitSlash_eq_single hx.2.2.2,
      cleanStack_append false (splitSlash q) [x] [],
      cleanStack_simple_push hx]
    rfl
  rw [clean, hdata, if_neg (by simp [hq]),
    if_neg (by rw [head?_append_of_ne_nil hq]; simpa using hqh),
    hstack, if_neg (by simp)]
  rw [List.reverse_cons, joinSlash_append_single]
  cases hS : cleanStack false [] (splitSlash q) with
  | nil => simp
  | cons e l =>
    simp only [if_neg (by simp : ¬(e :: l = []))]
    cases hrev : l.reverse ++ [e] with
    | nil => simp at hrev
    | cons a t => simp [hrev]

/-- `Clean` fixes normal paths. -/
theorem clean_normal {p : String} (h : NormalPath p) : clean p = p := by
  rw [clean, if_neg (normalPath_data_ne_nil h), if_neg (normalPath_head h),
    cleanStack_all_simple h false, if_neg (by simp [splitSlash_ne_nil p.data])]
  simp [joinSlash_splitSlash, mk_data_eq]

theorem normalPath_append_normal {p q : String} (hp : NormalPath p) (hq : NormalPath q) :
    NormalPath (String.mk (p.data ++ '/' :: q.data)) := by
  intro c hc
  rw [show (String.mk (p.data ++ '/' :: q.data)).data = p.data ++ '/' :: q.data from rfl,
    splitSlash_append] at hc
  rcases List.mem_append.mp hc with h | h
  · exact hp c h
  · exact hq c h

/-- `filepath.Join` of two normal paths concatenates them literally. -/
theorem join2_normal {p q : String} (hp : NormalPath p) (hq : NormalPath q) :
    join2 p q = String.mk (p.data ++ '/' :: q.data) := by
  have hfilter : [p, q].filter (fun e => e ≠ "") = [p, q] := by
    simp [List.filter, normalPath_ne_empty hp, normalPath_ne_empty hq]
  simp only [join2, goJoin, hfilter]
  rw [if_neg (by simp)]
  have hj : joinSlash ([p, q].map String.data) = p.data ++ '/' :: q.data := rfl
  rw [hj]
  exact clean_normal (normalPath_append_normal hp hq)

/-- The reduced component stack of `<root>/<collection>` (top at head). -/
def relStack (root c : String) : List (List Char) :=
  cleanStack false [] (splitSlash root.data ++ splitSlash c.data)

theorem relStack_red (root c : String) : RedStack (relStack root c) := by
  refine redStack_cleanStack ?_ [] redStack_nil
  intro d hd
  rcases List.mem_append.mp hd with h | h
  · exact splitSlash_no_slash root.data d h
  · exact splitSlash_no_slash c.data d h

/-- `filepath.Join(root, c, x)` for a simple final segment `x`: render the
reduced stack of `root/c` with `x` on top. -/
theorem join3_eq_render (root c : String) (x : List Char) (hroot : NormalPath root)
    (hc : c ≠ "") (hx : SimpleSeg x) :
    join3 root c (String.mk x) =
      if relStack root c = [] then String.mk x
      else String.mk (joinSlash (relStack root c).reverse ++ '/' :: x) := by
  have hxne : String.mk x ≠ "" := by rw [Ne, mk_eq_empty_iff]; exact hx.1
  have hfilter : [root, c, String.mk x].filter (fun e => e ≠ "") = [root, c, String.mk x] := by
    simp [List.filter, normalPath_ne_empty hroot, hc, hxne]
  simp only [join3, goJoin, hfilter]
  rw [if_neg (by simp)]
  have hj : joinSlash ([root, c, String.mk x].map String.data) =
      (root.data ++ '/' :: c.data) ++ '/' :: x := by
    show root.data ++ '/' :: (c.data ++ '/' :: x) = (root.data ++ '/' :: c.data) ++ '/' :: x
    simp
  rw [hj, clean_mk_append_seg (by simp [normalPath_data_ne_nil hroot])
      (by rw [head?_append_of_ne_nil (normalPath_data_ne_nil hroot)]
          exact normalPath_head hroot) hx,
    splitSlash_append]
  rfl

/-- `filepath.Join(filepath.Join(root, c), x)` renders the same stack:
joining in two steps or in one is the same for a simple final segment. -/
theorem join2_join2_eq_render (root c : String) (x : List Char) (hroot : NormalPath root)
    (hc : c ≠ "") (hx : SimpleSeg x) :
    join2 (join2 root c) (String.mk x) =
      if relStack root c = [] then String.mk x
      else String.mk (joinSlash (relStack root c).reverse ++ '/' :: x) := by
  have hxne : String.mk x ≠ "" := by rw [Ne, mk_eq_empty_iff]; exact hx.1
  have hfilter : [root, c].filter (fun e => e ≠ "") = [root, c] := by
    simp [List.filter, normalPath_ne_empty hroot, hc]
  have hjj : join2 root c =
      if relStack root c = [] then "."
      else String.mk (joinSlash (relStack root c).reverse) := by
    simp only [join2, goJoin, hfilter]
    rw [if_neg (by simp)]
    have hj : joinSlash ([root, c].map String.data) = root.data ++ '/' :: c.data := rfl
    rw [hj, clean, if_neg (by simp [normalPath_data_ne_nil hroot]),
      if_neg (by rw [head?_append_of_ne_nil (normalPath_data_ne_nil hroot)]
                 exact normalPath_head hroot),
      splitSlash_append]
    rfl
  rw [hjj]
  by_cases hS : relStack root c = []
  · rw [if_pos hS, if_pos hS]
    have hfilter2 : [".", String.mk x].filter (fun e => e ≠ "") = [".", String.mk x] := by
      simp [List.filter, hxne]
    simp only [join2, goJoin, hfilter2]
    rw [if_neg (by simp)]
    have hj : joinSlash (["." , String.mk x].map String.data) = ['.'] ++ '/' :: x := rfl
    rw [hj, clean_mk_append_seg (by simp) (by simp) hx]
    have hdot : cleanStack false [] (splitSlash ['.']) = [] := by
      simp [splitSlash, cleanStack]
    rw [hdot]
    simp
  · rw [if_neg hS, if_neg hS]
    obtain ⟨e, l, hel⟩ : ∃ e l, (relStack root c).reverse = e :: l := by
      cases h : (relStack root c).reverse with
      | nil => exact absurd (by simpa using congrArg List.reverse h) hS
      | cons e l => exact ⟨e, l, rfl⟩
    have helem : ∀ d ∈ (relStack root c).reverse, d ≠ [] ∧ '/' ∉ d := by
      intro d hd
      exact redStack_elem (relStack_red root c) d (List.mem_reverse.mp hd)
    have hene : e ≠ [] := (helem e (by rw [hel]; simp)).1
    have hPne : joinSlash (relStack root c).reverse ≠ [] := by
      rw [hel]; exact joinSlash_ne_nil l hene
    have hPmk : String.mk (joinSlash (relStack root c).reverse) ≠ "" := by
      rw [Ne, mk_eq_empty_iff]; exact hPne
    have hfilter3 : [String.mk (joinSlash (relStack root c).reverse), String.mk x].filter
        (fun e => e ≠ "") = [String.mk (joinSlash (relStack root c).reverse), String.mk x] := by
      simp [List.filter, hPmk, hxne]
    simp only [join2, goJoin, hfilter3]
    rw [if_neg (by simp)]
    have hj : joinSlash ([String.mk (joinSlash (relStack root c).reverse), String.mk x].map
        String.data) = joinSlash (relStack root c).reverse ++ '/' :: x := rfl
    rw [hj, clean_mk_append_seg hPne ?hhead hx]
    case hhead =>
      rw [hel, joinSlash_head? l hene]
      cases e with
      | nil => exact absurd rfl hene
      | cons ec ecs =>
        simp only [List.head?]
        intro hcon
        simp at hcon
        exact (helem (ec :: ecs) (by rw [hel]; simp)).2 (by simp [hcon])
    have hsp : splitSlash (joinSlash (relStack root c).reverse) = (relStack root c).reverse := by
      refine splitSlash_joinSlash (by rw [hel]; simp) ?_
      intro d hd
      exact (helem d hd).2
    rw [hsp, cleanStack_replay (relStack_red root c), if_neg hS]

theorem simpleName_normal {s : String} (h : SimpleSeg s.data) : NormalPath s := by
  have := simpleSeg_normalPath h
  rwa [mk_data_eq] at this

/-! ## JSON layer: `encoding/json.MarshalIndent(v, "", "\t")` and `json.Unmarshal`

Go values handed to the store are modelled as a JSON value tree (`GoVal`);
the extra constructor `unsupported` stands for any Go value that
`encoding/json` cannot encode (channels, functions, NaN, ...), making
`MarshalIndent` fallible exactly as in Go.  Numbers are modelled as
integers; object fields keep their order (Go struct fields).  The printer
mirrors `MarshalIndent(v, "", "\t")` output; HTML escaping of `<`, `>`,
`&` (a `Marshal` default irrelevant to every claim) is not modelled.  The
parser is a recursive-descent JSON reader in the style of the `Unmarshal`
grammar (it is lenient on number syntax: integers only, as only printer
output reaches it in the claims). -/

mutual
inductive GoVal where
  | null : GoVal
  | bool : Bool → GoVal
  | num : Int → GoVal
  | str : String → GoVal
  | arr : GoArr → GoVal
  | obj : GoObj → GoVal
  | unsupported : GoVal
inductive GoArr where
  | nil : GoArr
  | cons : GoVal → GoArr → GoArr
inductive GoObj where
  | nil : GoObj
  | cons : String → GoVal → GoObj → GoObj
end

deriving instance DecidableEq for GoVal
deriving instance DecidableEq for GoArr
deriving instance DecidableEq for GoObj

def hexDigitChar (n : Nat) : Char := if n < 10 then Char.ofNat (48 + n) else Char.ofNat (87 + n)

/-- JSON string escaping as Go's encoder emits it: `\"`, `\\`, `\n`, `\r`,
`\t`, and `\u00xx` for the remaining control characters. -/
def escapeChar (c : Char) : List Char :=
  if c = '"' then ['\\', '"']
  else if c = '\\' then ['\\', '\\']
  else if c = '\n' then ['\\', 'n']
  else if c = '\r' then ['\\', 'r']
  else if c = '\t' then ['\\', 't']
  else if c.toNat < 32 then ['\\', 'u', '0', '0', hexDigitChar (c.toNat / 16), hexDigitChar (c.toNat % 16)]
  else [c]

def escapeList : List Char → List Char
  | [] => []
  | c :: cs => escapeChar c ++ escapeList cs

def quoteStr (s : String) : List Char := '"' :: (escapeList s.data ++ ['"'])

def digitChar (n : Nat) : Char := Char.ofNat (48 + n)

def natDigitsAux : Nat → Nat → List Char
  | 0, _ => []
  | fuel + 1, n => if n = 0 then [] else natDigitsAux fuel (n / 10) ++ [digitChar (n % 10)]

def natChars (n : Nat) : List Char := if n = 0 then ['0'] else natDigitsAux (n + 1) n

def intChars : Int → List Char
  | .ofNat n => natChars n
  | .negSucc n => '-' :: natChars (n + 1)

def tabs (d : Nat) : List Char := List.replicate d '\t'

mutual
/-- The characters `json.MarshalIndent(v, "", "\t")` produces for a value
printed at nesting depth `d`. -/
def printVal (d : Nat) : GoVal → List Char
  | .null => ['n', 'u', 'l', 'l']
  | .bool b => if b then ['t', 'r', 'u', 'e'] else ['f', 'a', 'l', 's', 'e']
  | .num n => intChars n
  | .str s => quoteStr s
  | .arr .nil => ['[', ']']
  | .arr (.cons v t) =>
    '[' :: '\n' :: (tabs (d + 1) ++ printVal (d + 1) v ++ printArr (d + 1) t ++
      '\n' :: (tabs d ++ [']']))
  | .obj .nil => ['\x7b', '\x7d']
  | .obj (.cons k v t) =>
    '\x7b' :: '\n' :: (tabs (d + 1) ++ quoteStr k ++ ':' :: ' ' :: printVal (d + 1) v ++
      printObj (d + 1) t ++ '\n' :: (tabs d ++ ['\x7d']))
  | .unsupported => []
/-- Remaining array elements, each preceded by `,\n` and indentation. -/
def printArr (d : Nat) : GoArr → List Char
  | .nil => []
  | .cons v t => ',' :: '\n' :: (tabs d ++ printVal d v ++ printArr d t)
/-- Remaining object members, each preceded by `,\n` and indentation. -/
def printObj (d : Nat) : GoObj → List Char
  | .nil => []
  | .cons k v t => ',' :: '\n' :: (tabs d ++ quoteStr k ++ ':' :: ' ' :: printVal d v ++ printObj d t)
end

mutual
/-- Whether `encoding/json` can encode the value (no `unsupported` leaf). -/
def okVal : GoVal → Bool
  | .null => true
  | .bool _ => true
  | .num _ => true
  | .str _ => true
  | .arr a => okArr a
  | .obj o => okObj o
  | .unsupported => false
def okArr : GoArr → Bool
  | .nil => true
  | .cons v t => okVal v && okArr t
def okObj : GoObj → Bool
  | .nil => true
  | .cons _ v t => okVal v && okObj t
end

/-- `json.MarshalIndent(v, "", "\t")`: fails exactly on unsupported
values, otherwise the indented text. -/
def marshalIndent (v : GoVal) : Option String :=
  if okVal v then some (String.mk (printVal 0 v)) else none

def isWsChar (c : Char) : Bool := c = ' ' || c = '\t' || c = '\n' || c = '\r'

def skipWs : List Char → List Char
  | [] => []
  | c :: cs => if isWsChar c then skipWs cs else c :: cs

def fromHexDigit (c : Char) : Option Nat :=
  if '0' ≤ c ∧ c ≤ '9' then some (c.toNat - 48)
  else if 'a' ≤ c ∧ c ≤ 'f' then some (c.toNat - 87)
  else if 'A' ≤ c ∧ c ≤ 'F' then some (c.toNat - 55)
  else none

/-- Combine four hex digits into a code point, as `\uXXXX` requires. -/
def parseHex4 (h1 h2 h3 h4 : Char) : Option Nat :=
  match fromHexDigit h1, fromHexDigit h2, fromHexDigit h3, fromHexDigit h4 with
  | some a, some b, some c, some e => some (a * 4096 + b * 256 + c * 16 + e)
  | _, _, _, _ => none

/-- The character an escape letter denotes (`\n`, `\t`, ...), if simple. -/
def escCharOf (e : Char) : Option Char :=
  if e = '"' then some '"'
  else if e = '\\' then some '\\'
  else if e = '/' then some '/'
  else if e = 'b' then some '\x08'
  else if e = 'f' then some '\x0c'
  else if e = 'n' then some '\n'
  else if e = 'r' then some '\r'
  else if e = 't' then some '\t'
  else none

/-- JSON string body after the opening quote: unescape up to the closing
quote, returning content and remainder. -/
def parseStrBody : List Char → Option (List Char × List Char)
  | [] => none
  | c :: rest =>
    if c = '"' then some ([], rest)
    else if c = '\\' then
      match rest with
      | [] => none
      | e :: rs2 =>
        if e = 'u' then
          match rs2 with
          | h1 :: h2 :: h3 :: h4 :: rs =>
            (parseHex4 h1 h2 h3 h4).bind
              (fun n => (parseStrBody rs).map (fun p => (Char.ofNat n :: p.1, p.2)))
          | _ => none
        else
          match escCharOf e with
          | some d => (parseStrBody rs2).map (fun p => (d :: p.1, p.2))
          | none => none
    else (parseStrBody rest).map (fun p => (c :: p.1, p.2))

def parseDigits : List Char → Nat → Nat × List Char
  | [], acc => (acc, [])
  | c :: cs, acc =>
    if c.isDigit then parseDigits cs (acc * 10 + (c.toNat - 48)) else (acc, c :: cs)

def parseNatTok : List Char → Option (Nat × List Char)
  | [] => none
  | c :: cs => if c.isDigit then some (parseDigits cs (c.toNat - 48)) else none

def parseNumTok (cs : List Char) : Option (Int × List Char) :=
  match cs with
  | '-' :: rest => (parseNatTok rest).map (fun p => (-(p.1 : Int), p.2))
  | _ => (parseNatTok cs).map (fun p => ((p.1 : Int), p.2))

mutual
/-- Recursive-descent JSON value parser (`json.Unmarshal` grammar), with
fuel; every recursive call spends one unit. -/
def parseVal : Nat → List Char → Option (GoVal × List Char)
  | 0, _ => none
  | fuel + 1, cs =>
    match skipWs cs with
    | 'n' :: 'u' :: 'l' :: 'l' :: rest => some (.null, rest)
    | 't' :: 'r' :: 'u' :: 'e' :: rest => some (.bool true, rest)
    | 'f' :: 'a' :: 'l' :: 's' :: 'e' :: rest => some (.bool false, rest)
    | '"' :: rest => (parseStrBody rest).map (fun p => (.str (String.mk p.1), p.2))
    | '[' :: rest =>
      match skipWs rest with
      | ']' :: r2 => some (.arr .nil, r2)
      | cs2 =>
        match parseVal fuel cs2 with
        | none => none
        | some (v, r2) =>
          match parseArrTail fuel r2 with
          | none => none
          | some (t, r3) => some (.arr (.cons v t), r3)
    | '\x7b' :: rest =>
      match skipWs rest with
      | '\x7d' :: r2 => some (.obj .nil, r2)
      | cs2 =>
        match parseMember fuel cs2 with
        | none => none
        | some (k, v, r2) =>
          match parseObjTail fuel r2 with
          | none => none
          | some (t, r3) => some (.obj (.cons k v t), r3)
    | cs' => (parseNumTok cs').map (fun p => (.num p.1, p.2))
/-- After one array element: `, elem ...` or the closing bracket. -/
def parseArrTail : Nat → List Char → Option (GoArr × List Char)
  | 0, _ => none
  | fuel + 1, cs =>
    match skipWs cs with
    | ',' :: rest =>
      match parseVal fuel rest with
      | none => none
      | some (v, r2) =>
        match parseArrTail fuel r2 with
        | none => none
        | some (t, r3) => some (.cons v t, r3)
    | ']' :: rest => some (.nil, rest)
    | _ => none
/-- One `"key": value` object member. -/
def parseMember : Nat → List Char → Option (String × GoVal × List Char)
  | 0, _ => none
  | fuel + 1, cs =>
    match skipWs cs with
    | '"' :: rest =>
      match parseStrBody rest with
      | none => none
      | some (kc, r2) =>
        match skipWs r2 with
        | ':' :: r3 => (parseVal fuel r3).map (fun p => (String.mk kc, p.1, p.2))
        | _ => none
    | _ => none
/-- After one object member: `, member ...` or the closing brace. -/
def parseObjTail : Nat → List Char → Option (GoObj × List Char)
  | 0, _ => none
  | fuel + 1, cs =>
    match skipWs cs with
    | ',' :: rest =>
      match parseMember fuel rest with
      | none => none
      | some (k, v, r2) =>
        match parseObjTail fuel r2 with
        | none => none
        | some (t, r3) => some (.cons k v t, r3)
    | '\x7d' :: rest => some (.nil, rest)
    | _ => none
end

/-- `json.Unmarshal` into a same-shaped destination: parse one value,
allow trailing whitespace only. -/
def unmarshal (s : String) : Option GoVal :=
  match parseVal (s.data.length + 1) s.data with
  | some (v, rest) => if skipWs rest = [] then some v else none
  | none => none

/-! ### Round trip of the JSON codec -/

/-- The remainder after a parsed token must not begin with a digit (a
digit would be absorbed into a preceding number token). -/
def headNotDigit : List Char → Prop
  | [] => True
  | c :: _ => c.isDigit = false

theorem skipWs_cons_not_ws {c : Char} (h : isWsChar c = false) (l : List Char) :
    skipWs (c :: l) = c :: l := by
  simp [skipWs, h]

theorem skipWs_append_ws {ws : List Char} (h : ∀ c ∈ ws, isWsChar c = true)
    (l : List Char) : skipWs (ws ++ l) = skipWs l := by
  induction ws with
  | nil => rfl
  | cons c cs ih =>
    simp only [List.cons_append, skipWs, h c (by simp), if_pos]
    exact ih (fun d hd => h d (by simp [hd]))

theorem allWs_tabs (d : Nat) : ∀ c ∈ tabs d, isWsChar c = true := by
  intro c hc
  rw [tabs] at hc
  rw [List.eq_of_mem_replicate hc]
  rfl

theorem wsChar_not_digit {c : Char} (h : isWsChar c = true) : c.isDigit = false := by
  simp only [isWsChar, Bool.or_eq_true, decide_eq_true_eq] at h
  rcases h with ((h | h) | h) | h <;> subst h <;> rfl

theorem digit_toNat_bounds {c : Char} (h : c.isDigit = true) :
    48 ≤ c.toNat ∧ c.toNat ≤ 57 := by
  simp only [Char.isDigit, Bool.and_eq_true, decide_eq_true_eq] at h
  exact ⟨h.1, h.2⟩

theorem digit_not_ws {c : Char} (h : c.isDigit = true) : isWsChar c = false := by
  have hb := digit_toNat_bounds h
  simp only [isWsChar, Bool.or_eq_false_iff, decide_eq_false_iff_not]
  refine ⟨⟨⟨?_, ?_⟩, ?_⟩, ?_⟩ <;>
    · intro he
      subst he
      simp at hb

theorem toNat_digitChar {k : Nat} (h : k < 10) : (digitChar k).toNat = 48 + k := by
  interval_cases k <;> rfl

theorem isDigit_digitChar {k : Nat} (h : k < 10) : (digitChar k).isDigit = true := by
  interval_cases k <;> rfl

theorem fromHexDigit_hexDigitChar {k : Nat} (h : k < 16) :
    fromHexDigit (hexDigitChar k) = some k := by
  interval_cases k <;> rfl

/-- All characters `natDigitsAux` emits are digits. -/
theorem natDigitsAux_digits (fuel : Nat) : ∀ n c, c ∈ natDigitsAux fuel n → c.isDigit = true := by
  induction fuel with
  | zero => intro n c hc; simp [natDigitsAux] at hc
  | succ fuel ih =>
    intro n c hc
    rw [natDigitsAux] at hc
    split at hc
    · simp at hc
    · rcases List.mem_append.mp hc with h | h
      · exact ih _ c h
      · simp at h
        rw [h]
        exact isDigit_digitChar (Nat.mod_lt n (by norm_num))

theorem natChars_digits (n : Nat) : ∀ c ∈ natChars n, c.isDigit = true := by
  intro c hc
  rw [natChars] at hc
  split at hc
  · simp at hc; rw [hc]; rfl
  · exact natDigitsAux_digits (n + 1) n c hc

theorem natChars_ne_nil (n : Nat) : natChars n ≠ [] := by
  rw [natChars]
  split
  · simp
  · rename_i h
    rw [natDigitsAux, if_neg h]
    simp

/-- Folding parse of digit characters, as `parseDigits` accumulates. -/
def foldVal (acc : Nat) (ds : List Char) : Nat :=
  ds.foldl (fun a c => a * 10 + (c.toNat - 48)) acc

theorem parseDigits_append {ds : List Char} (h : ∀ c ∈ ds, c.isDigit = true) :
    ∀ rest acc, parseDigits (ds ++ rest) acc = parseDigits rest (foldVal acc ds) := by
  induction ds with
  | nil => intro rest acc; rfl
  | cons c cs ih =>
    intro rest acc
    simp only [List.cons_append, parseDigits, h c (by simp), if_pos]
    simp only [List.append_eq]
    rw [ih (fun d hd => h d (by simp [hd]))]
    rfl

theorem parseDigits_stop {rest : List Char} (h : headNotDigit rest) (acc : Nat) :
    parseDigits rest acc = (acc, rest) := by
  cases rest with
  | nil => rfl
  | cons c cs =>
    simp only [headNotDigit] at h
    simp [parseDigits, h]

theorem foldVal_natDigitsAux (fuel : Nat) :
    ∀ n acc, n < 10 ^ fuel →
      foldVal acc (natDigitsAux fuel n) = acc * 10 ^ (natDigitsAux fuel n).length + n := by
  induction fuel with
  | zero =>
    intro n acc hn
    simp at hn
    simp [hn, natDigitsAux, foldVal]
  | succ fuel ih =>
    intro n acc hn
    rw [natDigitsAux]
    split
    · rename_i h
      simp [h, foldVal]
    · rename_i h
      have hdiv : n / 10 < 10 ^ fuel := by
        rw [Nat.div_lt_iff_lt_mul (by norm_num)]
        rw [pow_succ] at hn
        exact hn
      have hfold : foldVal acc (natDigitsAux fuel (n / 10) ++ [digitChar (n % 10)]) =
          foldVal acc (natDigitsAux fuel (n / 10)) * 10 + n % 10 := by
        rw [foldVal, List.foldl_append]
        simp [foldVal, toNat_digitChar (Nat.mod_lt n (by norm_num))]
      rw [hfold, ih (n / 10) acc hdiv]
      rw [List.length_append]
      simp only [List.length_singleton]
      rw [pow_succ, ← mul_assoc]
      have hdm := Nat.div_add_mod n 10
      generalize acc * 10 ^ (natDigitsAux fuel (n / 10)).length = A
      ring_nf
      omega

theorem parseNatTok_natChars {rest : List Char} (h : headNotDigit rest) (n : Nat) :
    parseNatTok (natChars n ++ rest) = some (n, rest) := by
  have hlt : n < 10 ^ (n + 1) :=
    lt_of_lt_of_le (Nat.lt_pow_self (by norm_num) n)
      (Nat.pow_le_pow_right (by norm_num) (Nat.le_succ n))
  cases hnc : natChars n with
  | nil => exact absurd hnc (natChars_ne_nil n)
  | cons c cs =>
    have hdig : ∀ d ∈ c :: cs, Char.isDigit d = true := by
      rw [← hnc]; exact natChars_digits n
    simp only [List.cons_append, parseNatTok, hdig c (by simp), if_pos]
    rw [show (cs ++ rest : List Char) = cs ++ rest from rfl]
    rw [parseDigits_append (fun d hd => hdig d (by simp [hd])) rest (c.toNat - 48),
      parseDigits_stop h]
    have hfold : foldVal (c.toNat - 48) cs = n := by
      have h0 : foldVal 0 (c :: cs) = foldVal (c.toNat - 48) cs := by
        simp [foldVal]
      rw [← h0, ← hnc]
      rw [natChars]
      split
      · rename_i hn0
        simp [hn0, foldVal, digitChar]
      · rw [foldVal_natDigitsAux (n + 1) n 0 hlt]
        simp
    rw [hfold]

theorem parseNumTok_intChars {rest : List Char} (h : headNotDigit rest) (i : Int) :
    parseNumTok (intChars i ++ rest) = some (i, rest) := by
  cases i with
  | ofNat n =>
    rw [intChars]
    cases hnc : natChars n with
    | nil => exact absurd hnc (natChars_ne_nil n)
    | cons c cs =>
      have hdig : c.isDigit = true := natChars_digits n c (by rw [hnc]; simp)
      have hcm : c ≠ '-' := by
        intro he
        rw [he] at hdig
        simp [Char.isDigit] at hdig
      rw [parseNumTok.eq_def]
      simp only [List.cons_append]
      split
      · rename_i heq
        simp at heq
        exact absurd heq.1 hcm
      · rw [← List.cons_append, ← hnc, parseNatTok_natChars h n]
        rfl
  | negSucc n =>
    rw [intChars]
    simp only [List.cons_append]
    rw [parseNumTok.eq_def]
    simp only []
    rw [parseNatTok_natChars h (n + 1)]
    simp [Int.negSucc_eq]

/-- An unescaped character in a JSON string body is taken verbatim. -/
theorem parseStrBody_raw {c : Char} (h1 : c ≠ '"') (h2 : c ≠ '\\') (xs : List Char) :
    parseStrBody (c :: xs) = (parseStrBody xs).map (fun p => (c :: p.1, p.2)) := by
  conv_lhs => rw [parseStrBody.eq_def]
  simp [h1, h2]

theorem parseStrBody_esc_quote (xs : List Char) :
    parseStrBody ('\\' :: '"' :: xs) = (parseStrBody xs).map (fun p => ('"' :: p.1, p.2)) := by
  conv_lhs => rw [parseStrBody.eq_def]
  simp [escCharOf]

theorem parseStrBody_esc_back (xs : List Char) :
    parseStrBody ('\\' :: '\\' :: xs) = (parseStrBody xs).map (fun p => ('\\' :: p.1, p.2)) := by
  conv_lhs => rw [parseStrBody.eq_def]
  simp [escCharOf]

theorem parseStrBody_esc_n (xs : List Char) :
    parseStrBody ('\\' :: 'n' :: xs) = (parseStrBody xs).map (fun p => ('\n' :: p.1, p.2)) := by
  conv_lhs => rw [parseStrBody.eq_def]
  simp [escCharOf]

theorem parseStrBody_esc_r (xs : List Char) :
    parseStrBody ('\\' :: 'r' :: xs) = (parseStrBody xs).map (fun p => ('\r' :: p.1, p.2)) := by
  conv_lhs => rw [parseStrBody.eq_def]
  simp [escCharOf]

theorem parseStrBody_esc_t (xs : List Char) :
    parseStrBody ('\\' :: 't' :: xs) = (parseStrBody xs).map (fun p => ('\t' :: p.1, p.2)) := by
  conv_lhs => rw [parseStrBody.eq_def]
  simp [escCharOf]

theorem parseStrBody_esc_u (h1 h2 h3 h4 : Char) (n : Nat) (xs : List Char)
    (hhex : parseHex4 h1 h2 h3 h4 = some n) :
    parseStrBody ('\\' :: 'u' :: h1 :: h2 :: h3 :: h4 :: xs) =
      (parseStrBody xs).map (fun p => (Char.ofNat n :: p.1, p.2)) := by
  conv_lhs => rw [parseStrBody.eq_def]
  simp [hhex]

theorem parseHex4_eval {h1 h2 h3 h4 : Char} {a b c' e : Nat}
    (e1 : fromHexDigit h1 = some a) (e2 : fromHexDigit h2 = some b)
    (e3 : fromHexDigit h3 = some c') (e4 : fromHexDigit h4 = some e) :
    parseHex4 h1 h2 h3 h4 = some (a * 4096 + b * 256 + c' * 16 + e) := by
  simp [parseHex4, e1, e2, e3, e4]

/-- Unescaping the escape of a string body returns it verbatim. -/
theorem parseStrBody_escape (l : List Char) :
    ∀ rest, parseStrBody (escapeList l ++ '"' :: rest) = some (l, rest) := by
  induction l with
  | nil =>
    intro rest
    rw [show escapeList [] = [] from rfl, List.nil_append]
    conv_lhs => rw [parseStrBody.eq_def]
    simp
  | cons c cs ih =>
    intro rest
    have hgoal : escapeList (c :: cs) ++ '"' :: rest =
        escapeChar c ++ (escapeList cs ++ '"' :: rest) := by
      show (escapeChar c ++ escapeList cs) ++ '"' :: rest = _
      simp
    rw [hgoal]
    by_cases hq : c = '"'
    · subst hq
      rw [show escapeChar '"' = ['\\', '"'] from rfl]
      rw [show (['\\', '"'] : List Char) ++ (escapeList cs ++ '"' :: rest) =
        '\\' :: '"' :: (escapeList cs ++ '"' :: rest) from rfl]
      rw [parseStrBody_esc_quote, ih rest]
      rfl
    · by_cases hb : c = '\\'
      · subst hb
        rw [show escapeChar '\\' = ['\\', '\\'] from rfl]
        rw [show (['\\', '\\'] : List Char) ++ (escapeList cs ++ '"' :: rest) =
          '\\' :: '\\' :: (escapeList cs ++ '"' :: rest) from rfl]
        rw [parseStrBody_esc_back, ih rest]
        rfl
      · by_cases hn : c = '\n'
        · subst hn
          rw [show escapeChar '\n' = ['\\', 'n'] from rfl]
          rw [show (['\\', 'n'] : List Char) ++ (escapeList cs ++ '"' :: rest) =
            '\\' :: 'n' :: (escapeList cs ++ '"' :: rest) from rfl]
          rw [parseStrBody_esc_n, ih rest]
          rfl
        · by_cases hr : c = '\r'
          · subst hr
            rw [show escapeChar '\r' = ['\\', 'r'] from rfl]
            rw [show (['\\', 'r'] : List Char) ++ (escapeList cs ++ '"' :: rest) =
              '\\' :: 'r' :: (escapeList cs ++ '"' :: rest) from rfl]
            rw [parseStrBody_esc_r, ih rest]
            rfl
          · by_cases ht : c = '\t'
            · subst ht
              rw [show escapeChar '\t' = ['\\', 't'] from rfl]
              rw [show (['\\', 't'] : List Char) ++ (escapeList cs ++ '"' :: rest) =
                '\\' :: 't' :: (escapeList cs ++ '"' :: rest) from rfl]
              rw [parseStrBody_esc_t, ih rest]
              rfl
            · by_cases hc : c.toNat < 32
              · have hesc : escapeChar c = ['\\', 'u', '0', '0', hexDigitChar (c.toNat / 16),
                    hexDigitChar (c.toNat % 16)] := by
                  rw [escapeChar, if_neg hq, if_neg hb, if_neg hn, if_neg hr, if_neg ht,
                    if_pos hc]
                rw [hesc]
                rw [show (['\\', 'u', '0', '0', hexDigitChar (c.toNat / 16),
                    hexDigitChar (c.toNat % 16)] : List Char) ++ (escapeList cs ++ '"' :: rest) =
                  '\\' :: 'u' :: '0' :: '0' :: hexDigitChar (c.toNat / 16) ::
                    hexDigitChar (c.toNat % 16) :: (escapeList cs ++ '"' :: rest) from rfl]
                rw [parseStrBody_esc_u _ _ _ _ (c.toNat) _
                  (by
                    rw [parseHex4_eval (by decide : fromHexDigit '0' = some 0)
                      (by decide : fromHexDigit '0' = some 0)
                      (@fromHexDigit_hexDigitChar (c.toNat / 16) (by omega))
                      (@fromHexDigit_hexDigitChar (c.toNat % 16) (by omega))]
                    congr 1
                    omega)]
                rw [ih rest, Char.ofNat_toNat]
                rfl
              · have hesc : escapeChar c = [c] := by
                  rw [escapeChar, if_neg hq, if_neg hb, if_neg hn, if_neg hr, if_neg ht,
                    if_neg hc]
                rw [hesc]
                rw [show ([c] : List Char) ++ (escapeList cs ++ '"' :: rest) =
                  c :: (escapeList cs ++ '"' :: rest) from rfl]
                rw [parseStrBody_raw hq hb, ih rest]
                rfl

/-- Stripping a run of whitespace before a non-whitespace character. -/
theorem skipWs_pre {pre : List Char} (hpre : ∀ c ∈ pre, isWsChar c = true)
    {c : Char} (hc : isWsChar c = false) (l : List Char) :
    skipWs (pre ++ c :: l) = c :: l := by
  rw [skipWs_append_ws hpre, skipWs_cons_not_ws hc]

/-- Leading whitespace is irrelevant to the value parser. -/
theorem parseVal_ws_inv {pre : List Char} (hpre : ∀ c ∈ pre, isWsChar c = true)
    (fuel : Nat) (cs : List Char) :
    parseVal (fuel + 1) (pre ++ cs) = parseVal (fuel + 1) cs := by
  rw [parseVal, parseVal, skipWs_append_ws hpre]

/-- First character of a number token. -/
theorem intChars_shape (n : Int) :
    ∃ c l, intChars n = c :: l ∧ (c.isDigit = true ∨ c = '-') := by
  cases n with
  | ofNat m =>
    cases hnc : natChars m with
    | nil => exact absurd hnc (natChars_ne_nil m)
    | cons c l =>
      exact ⟨c, l, by rw [intChars, hnc], Or.inl (natChars_digits m c (by rw [hnc]; simp))⟩
  | negSucc m => exact ⟨'-', natChars (m + 1), rfl, Or.inr rfl⟩

theorem parseVal_num_start (fuel : Nat) (c : Char) (l : List Char)
    (h : c.isDigit = true ∨ c = '-') :
    parseVal (fuel + 1) (c :: l) = (parseNumTok (c :: l)).map (fun p => (.num p.1, p.2)) := by
  have hnws : isWsChar c = false := by
    rcases h with h | h
    · exact digit_not_ws h
    · rw [h]; rfl
  have hne : ∀ x : Char, x ∈ (['n', 't', 'f', '"', '[', '\x7b'] : List Char) → c ≠ x := by
    intro x hx he
    subst he
    rcases h with h | h
    · simp at hx
      rcases hx with hx | hx | hx | hx | hx | hx <;> rw [hx] at h <;> simp [Char.isDigit] at h
    · simp at hx
      rcases hx with hx | hx | hx | hx | hx | hx <;> rw [hx] at h <;> exact absurd h (by decide)
  rw [parseVal, skipWs_cons_not_ws hnws]
  split
  · rename_i heq
    exact absurd (by simp at heq; exact heq.1) (hne 'n' (by simp))
  · rename_i heq
    exact absurd (by simp at heq; exact heq.1) (hne 't' (by simp))
  · rename_i heq
    exact absurd (by simp at heq; exact heq.1) (hne 'f' (by simp))
  · rename_i heq
    exact absurd (by simp at heq; exact heq.1) (hne '"' (by simp))
  · rename_i heq
    exact absurd (by simp at heq; exact heq.1) (hne '[' (by simp))
  · rename_i heq
    exact absurd (by simp at heq; exact heq.1) (hne '\x7b' (by simp))
  · rfl

/-- Characters that can begin a printed JSON value. -/
def valStartChar (c : Char) : Prop :=
  c = 'n' ∨ c = 't' ∨ c = 'f' ∨ c = '"' ∨ c = '[' ∨ c = '\x7b' ∨ c = '-' ∨ c.isDigit = true

theorem valStartChar_not_ws {c : Char} (h : valStartChar c) : isWsChar c = false := by
  rcases h with h | h | h | h | h | h | h | h
  · rw [h]; rfl
  · rw [h]; rfl
  · rw [h]; rfl
  · rw [h]; rfl
  · rw [h]; rfl
  · rw [h]; rfl
  · rw [h]; rfl
  · exact digit_not_ws h

theorem valStartChar_ne_rbracket {c : Char} (h : valStartChar c) : c ≠ ']' := by
  intro he
  subst he
  rcases h with h | h | h | h | h | h | h | h <;> simp_all [Char.isDigit]

/-- An encodable value prints to a nonempty string beginning with a value
start character. -/
theorem printVal_head (d : Nat) (v : GoVal) (hok : okVal v = true) :
    ∃ c l, printVal d v = c :: l ∧ valStartChar c := by
  cases v with
  | null => exact ⟨'n', _, rfl, Or.inl rfl⟩
  | bool b =>
    cases b with
    | true => exact ⟨'t', _, rfl, Or.inr (Or.inl rfl)⟩
    | false => exact ⟨'f', _, rfl, Or.inr (Or.inr (Or.inl rfl))⟩
  | num n =>
    obtain ⟨c, l, hcl, hc⟩ := intChars_shape n
    refine ⟨c, l, by rw [show printVal d (.num n) = intChars n from rfl, hcl], ?_⟩
    rcases hc with hc | hc
    · exact Or.inr (Or.inr (Or.inr (Or.inr (Or.inr (Or.inr (Or.inr hc))))))
    · exact Or.inr (Or.inr (Or.inr (Or.inr (Or.inr (Or.inr (Or.inl hc))))))
  | str s => exact ⟨'"', _, rfl, Or.inr (Or.inr (Or.inr (Or.inl rfl)))⟩
  | arr a =>
    cases a with
    | nil => exact ⟨'[', _, rfl, Or.inr (Or.inr (Or.inr (Or.inr (Or.inl rfl))))⟩
    | cons v t => exact ⟨'[', _, rfl, Or.inr (Or.inr (Or.inr (Or.inr (Or.inl rfl))))⟩
  | obj o =>
    cases o with
    | nil => exact ⟨'\x7b', _, rfl, Or.inr (Or.inr (Or.inr (Or.inr (Or.inr (Or.inl rfl)))))⟩
    | cons k v t =>
      exact ⟨'\x7b', _, rfl, Or.inr (Or.inr (Or.inr (Or.inr (Or.inr (Or.inl rfl)))))⟩
  | unsupported => simp [okVal] at hok

mutual
/-- Fuel a successful parse of a printed value needs. -/
def needV : GoVal → Nat
  | .null => 1
  | .bool _ => 1
  | .num _ => 1
  | .str _ => 1
  | .arr .nil => 1
  | .arr (.cons v t) => 1 + max (needV v) (needA t)
  | .obj .nil => 1
  | .obj (.cons _ v t) => 1 + max (1 + needV v) (needO t)
  | .unsupported => 1
def needA : GoArr → Nat
  | .nil => 1
  | .cons v t => 1 + max (needV v) (needA t)
def needO : GoObj → Nat
  | .nil => 1
  | .cons _ v t => 1 + max (1 + needV v) (needO t)
end

theorem one_le_needV (v : GoVal) : 1 ≤ needV v := by
  cases v with
  | arr a => cases a <;> simp [needV]
  | obj o => cases o <;> simp [needV]
  | _ => simp [needV]

theorem one_le_needA (t : GoArr) : 1 ≤ needA t := by
  cases t <;> simp [needA]

theorem one_le_needO (t : GoObj) : 1 ≤ needO t := by
  cases t <;> simp [needO]

theorem headNotDigit_wsClose {wsl : List Char} (h : ∀ c ∈ wsl, isWsChar c = true)
    {c : Char} (hc : c.isDigit = false) (r : List Char) :
    headNotDigit (wsl ++ c :: r) := by
  cases wsl with
  | nil => exact hc
  | cons w ws => exact wsChar_not_digit (h w (by simp))

theorem headNotDigit_arrCtx {wsl : List Char} (h : ∀ c ∈ wsl, isWsChar c = true)
    (d : Nat) (t : GoArr) (r : List Char) :
    headNotDigit (printArr d t ++ (wsl ++ ']' :: r)) := by
  cases t with
  | nil => exact headNotDigit_wsClose h (by decide) r
  | cons v t' => exact (by decide : (',' : Char).isDigit = false)

theorem headNotDigit_objCtx {wsl : List Char} (h : ∀ c ∈ wsl, isWsChar c = true)
    (d : Nat) (t : GoObj) (r : List Char) :
    headNotDigit (printObj d t ++ (wsl ++ '\x7d' :: r)) := by
  cases t with
  | nil => exact headNotDigit_wsClose h (by decide) r
  | cons k v t' => exact (by decide : (',' : Char).isDigit = false)

theorem allWs_nl_tabs (d : Nat) : ∀ c ∈ '\n' :: tabs d, isWsChar c = true := by
  intro c hc
  rcases List.mem_cons.mp hc with h | h
  · rw [h]; rfl
  · exact allWs_tabs d c h

theorem parseVal_str_start (fuel : Nat) (xs : List Char) :
    parseVal (fuel + 1) ('"' :: xs) =
      (parseStrBody xs).map (fun p => (.str (String.mk p.1), p.2)) := by
  rw [parseVal]
  rfl

theorem parseVal_arr_start (fuel : Nat) (xs : List Char) :
    parseVal (fuel + 1) ('[' :: xs) =
      (match skipWs xs with
       | ']' :: r2 => some (.arr .nil, r2)
       | cs2 =>
         match parseVal fuel cs2 with
         | none => none
         | some (v, r2) =>
           match parseArrTail fuel r2 with
           | none => none
           | some (t, r3) => some (.arr (.cons v t), r3)) := by
  rw [parseVal]
  rfl

theorem parseVal_obj_start (fuel : Nat) (xs : List Char) :
    parseVal (fuel + 1) ('\x7b' :: xs) =
      (match skipWs xs with
       | '\x7d' :: r2 => some (.obj .nil, r2)
       | cs2 =>
         match parseMember fuel cs2 with
         | none => none
         | some (k, v, r2) =>
           match parseObjTail fuel r2 with
           | none => none
           | some (t, r3) => some (.obj (.cons k v t), r3)) := by
  rw [parseVal]
  rfl

theorem parseMember_ws_inv {pre : List Char} (hpre : ∀ c ∈ pre, isWsChar c = true)
    (fuel : Nat) (cs : List Char) :
    parseMember (fuel + 1) (pre ++ cs) = parseMember (fuel + 1) cs := by
  rw [parseMember, parseMember, skipWs_append_ws hpre]

theorem parseMember_start (fuel : Nat) (xs : List Char) :
    parseMember (fuel + 1) ('"' :: xs) =
      (match parseStrBody xs with
       | none => none
       | some (kc, r2) =>
         match skipWs r2 with
         | ':' :: r3 => (parseVal fuel r3).map (fun p => (String.mk kc, p.1, p.2))
         | _ => none) := by
  rw [parseMember]
  rfl

theorem parseArrTail_comma (fuel : Nat) (xs : List Char) :
    parseArrTail (fuel + 1) (',' :: xs) =
      (match parseVal fuel xs with
       | none => none
       | some (v, r2) =>
         match parseArrTail fuel r2 with
         | none => none
         | some (t, r3) => some (.cons v t, r3)) := by
  rw [parseArrTail]
  rfl

theorem parseObjTail_comma (fuel : Nat) (xs : List Char) :
    parseObjTail (fuel + 1) (',' :: xs) =
      (match parseMember fuel xs with
       | none => none
       | some (k, v, r2) =>
         match parseObjTail fuel r2 with
         | none => none
         | some (t, r3) => some (.cons k v t, r3)) := by
  rw [parseObjTail]
  rfl

mutual
/-- Parsing the printed form of an encodable value, after any leading
whitespace and before a remainder not starting with a digit, returns the
value and that remainder. -/
theorem parse_printVal (v : GoVal) (d fuel : Nat) (pre rest : List Char)
    (hok : okVal v = true) (hneed : needV v ≤ fuel)
    (hpre : ∀ c ∈ pre, isWsChar c = true) (hrest : headNotDigit rest) :
    parseVal fuel (pre ++ (printVal d v ++ rest)) = some (v, rest) := by
  cases fuel with
  | zero => exact absurd hneed (by have := one_le_needV v; omega)
  | succ f =>
    rw [parseVal_ws_inv hpre]
    cases v with
    | null =>
      rw [show printVal d GoVal.null ++ rest = 'n' :: 'u' :: 'l' :: 'l' :: rest from rfl,
        parseVal]
      rfl
    | bool b =>
      cases b with
      | true =>
        rw [show printVal d (GoVal.bool true) ++ rest = 't' :: 'r' :: 'u' :: 'e' :: rest
          from rfl, parseVal]
        rfl
      | false =>
        rw [show printVal d (GoVal.bool false) ++ rest =
          'f' :: 'a' :: 'l' :: 's' :: 'e' :: rest from rfl, parseVal]
        rfl
    | num n =>
      obtain ⟨c, l, hcl, hc⟩ := intChars_shape n
      rw [show printVal d (GoVal.num n) = intChars n from rfl, hcl, List.cons_append,
        parseVal_num_start f c (l ++ rest) hc, ← List.cons_append, ← hcl,
        parseNumTok_intChars hrest n]
      rfl
    | str s =>
      have hstr : printVal d (GoVal.str s) ++ rest =
          '"' :: (escapeList s.data ++ '"' :: rest) := by
        show quoteStr s ++ rest = _
        simp [quoteStr]
      rw [hstr, parseVal_str_start, parseStrBody_escape s.data rest]
      simp [mk_data_eq]
    | arr a =>
      cases a with
      | nil =>
        rw [show printVal d (GoVal.arr GoArr.nil) ++ rest = '[' :: ']' :: rest from rfl,
          parseVal]
        rfl
      | cons v t =>
        simp only [okVal, okArr, Bool.and_eq_true] at hok
        have hneedv : needV v ≤ f ∧ needA t ≤ f := by
          simp only [needV] at hneed
          constructor
          · have := le_max_left (needV v) (needA t); omega
          · have := le_max_right (needV v) (needA t); omega
        obtain ⟨c0, l0, hpv, hc0⟩ := printVal_head (d + 1) v hok.1
        have hfmt : printVal d (GoVal.arr (GoArr.cons v t)) ++ rest =
            '[' :: ('\n' :: (tabs (d + 1) ++ (printVal (d + 1) v ++
              (printArr (d + 1) t ++ (('\n' :: tabs d) ++ ']' :: rest))))) := by
          show ('[' :: '\n' :: (tabs (d + 1) ++ printVal (d + 1) v ++ printArr (d + 1) t ++
            '\n' :: (tabs d ++ [']']))) ++ rest = _
          simp
        rw [hfmt, parseVal_arr_start]
        have hskip : skipWs ('\n' :: (tabs (d + 1) ++ (printVal (d + 1) v ++
            (printArr (d + 1) t ++ (('\n' :: tabs d) ++ ']' :: rest))))) =
            c0 :: (l0 ++ (printArr (d + 1) t ++ (('\n' :: tabs d) ++ ']' :: rest))) := by
          rw [show ('\n' :: (tabs (d + 1) ++ (printVal (d + 1) v ++
              (printArr (d + 1) t ++ (('\n' :: tabs d) ++ ']' :: rest)))) : List Char) =
            ('\n' :: tabs (d + 1)) ++ (printVal (d + 1) v ++
              (printArr (d + 1) t ++ (('\n' :: tabs d) ++ ']' :: rest))) from by simp,
            skipWs_append_ws (allWs_nl_tabs (d + 1)), hpv, List.cons_append,
            skipWs_cons_not_ws (valStartChar_not_ws hc0)]
        rw [hskip]
        split
        · rename_i heq
          have : c0 = ']' := by simp at heq; exact heq.1
          exact absurd this (valStartChar_ne_rbracket hc0)
        · have hIH := parse_printVal v (d + 1) f []
            (printArr (d + 1) t ++ (('\n' :: tabs d) ++ ']' :: rest)) hok.1 hneedv.1
            (by simp) (headNotDigit_arrCtx (allWs_nl_tabs d) (d + 1) t rest)
          rw [List.nil_append] at hIH
          rw [← List.cons_append, ← hpv, hIH]
          have hT := parse_printArrTail t (d + 1) f ('\n' :: tabs d) rest hok.2 hneedv.2
            (allWs_nl_tabs d)
          simp only [hT]
    | obj o =>
      cases o with
      | nil =>
        rw [show printVal d (GoVal.obj GoObj.nil) ++ rest = '\x7b' :: '\x7d' :: rest
          from rfl, parseVal]
        rfl
      | cons k v t =>
        simp only [okVal, okObj, Bool.and_eq_true] at hok
        have hneedv : 1 + needV v ≤ f ∧ needO t ≤ f := by
          simp only [needV] at hneed
          constructor
          · have := le_max_left (1 + needV v) (needO t); omega
          · have := le_max_right (1 + needV v) (needO t); omega
        have hfmt : printVal d (GoVal.obj (GoObj.cons k v t)) ++ rest =
            '\x7b' :: ('\n' :: (tabs (d + 1) ++ (quoteStr k ++ (':' :: ' ' ::
              (printVal (d + 1) v ++ (printObj (d + 1) t ++
                (('\n' :: tabs d) ++ '\x7d' :: rest))))))) := by
          show ('\x7b' :: '\n' :: (tabs (d + 1) ++ quoteStr k ++ ':' :: ' ' ::
            printVal (d + 1) v ++ printObj (d + 1) t ++ '\n' :: (tabs d ++ ['\x7d']))) ++
              rest = _
          simp
        rw [hfmt, parseVal_obj_start]
        have hskip : skipWs ('\n' :: (tabs (d + 1) ++ (quoteStr k ++ (':' :: ' ' ::
            (printVal (d + 1) v ++ (printObj (d + 1) t ++
              (('\n' :: tabs d) ++ '\x7d' :: rest))))))) =
            '"' :: (escapeList k.data ++ '"' :: (':' :: ' ' ::
              (printVal (d + 1) v ++ (printObj (d + 1) t ++
                (('\n' :: tabs d) ++ '\x7d' :: rest))))) := by
          rw [show ('\n' :: (tabs (d + 1) ++ (quoteStr k ++ (':' :: ' ' ::
              (printVal (d + 1) v ++ (printObj (d + 1) t ++
                (('\n' :: tabs d) ++ '\x7d' :: rest)))))) : List Char) =
            ('\n' :: tabs (d + 1)) ++ (quoteStr k ++ (':' :: ' ' ::
              (printVal (d + 1) v ++ (printObj (d + 1) t ++
                (('\n' :: tabs d) ++ '\x7d' :: rest))))) from by simp,
            skipWs_append_ws (allWs_nl_tabs (d + 1))]
          rw [show (quoteStr k ++ (':' :: ' ' :: (printVal (d + 1) v ++
              (printObj (d + 1) t ++ (('\n' :: tabs d) ++ '\x7d' :: rest)))) : List Char) =
            '"' :: (escapeList k.data ++ '"' :: (':' :: ' ' :: (printVal (d + 1) v ++
              (printObj (d + 1) t ++ (('\n' :: tabs d) ++ '\x7d' :: rest))))) from by
            simp [quoteStr]]
          rw [skipWs_cons_not_ws (by rfl)]
        rw [hskip]
        split
        · rename_i heq
          simp at heq
        · have hIH := parse_printMember v k (d + 1) f []
            (printObj (d + 1) t ++ (('\n' :: tabs d) ++ '\x7d' :: rest)) hok.1
            (by omega) (by simp) (headNotDigit_objCtx (allWs_nl_tabs d) (d + 1) t rest)
          rw [List.nil_append] at hIH
          have hqfmt : ('"' : Char) :: (escapeList k.data ++ '"' :: (':' :: ' ' ::
              (printVal (d + 1) v ++ (printObj (d + 1) t ++
                (('\n' :: tabs d) ++ '\x7d' :: rest))))) =
              quoteStr k ++ (':' :: ' ' :: (printVal (d + 1) v ++
                (printObj (d + 1) t ++ (('\n' :: tabs d) ++ '\x7d' :: rest)))) := by
            simp [quoteStr]
          rw [hqfmt, hIH]
          have hT := parse_printObjTail t (d + 1) f ('\n' :: tabs d) rest hok.2 hneedv.2
            (allWs_nl_tabs d)
          simp only [hT]
    | unsupported => simp [okVal] at hok
  termination_by (sizeOf v, 0)

/-- Parsing a printed `"key": value` member. -/
theorem parse_printMember (v : GoVal) (k : String) (d fuel : Nat) (pre rest : List Char)
    (hok : okVal v = true) (hneed : 1 + needV v ≤ fuel)
    (hpre : ∀ c ∈ pre, isWsChar c = true) (hrest : headNotDigit rest) :
    parseMember fuel (pre ++ (quoteStr k ++ (':' :: ' ' :: (printVal d v ++ rest)))) =
      some (k, v, rest) := by
  cases fuel with
  | zero => exact absurd hneed (by omega)
  | succ f =>
    rw [parseMember_ws_inv hpre]
    have hqfmt : quoteStr k ++ (':' :: ' ' :: (printVal d v ++ rest)) =
        '"' :: (escapeList k.data ++ '"' :: (':' :: ' ' :: (printVal d v ++ rest))) := by
      simp [quoteStr]
    rw [hqfmt, parseMember_start, parseStrBody_escape k.data]
    have hsk : skipWs (':' :: ' ' :: (printVal d v ++ rest)) =
        ':' :: ' ' :: (printVal d v ++ rest) := skipWs_cons_not_ws (by rfl) _
    simp only [hsk]
    have hIH := parse_printVal v d f [' '] rest hok (by omega) (by decide) hrest
    rw [show (' ' :: (printVal d v ++ rest) : List Char) =
      [' '] ++ (printVal d v ++ rest) from rfl, hIH]
    simp [mk_data_eq]
  termination_by (sizeOf v, 1)

/-- Parsing the printed remainder of an array followed by whitespace and
the closing bracket. -/
theorem parse_printArrTail (t : GoArr) (d fuel : Nat) (wsl rest : List Char)
    (hok : okArr t = true) (hneed : needA t ≤ fuel)
    (hwsl : ∀ c ∈ wsl, isWsChar c = true) :
    parseArrTail fuel (printArr d t ++ (wsl ++ ']' :: rest)) = some (t, rest) := by
  cases fuel with
  | zero => exact absurd hneed (by have := one_le_needA t; omega)
  | succ f =>
    cases t with
    | nil =>
      rw [show printArr d GoArr.nil ++ (wsl ++ ']' :: rest) = wsl ++ ']' :: rest from by
        simp [printArr]]
      rw [parseArrTail, skipWs_pre hwsl (by rfl)]
      rfl
    | cons v t' =>
      simp only [okArr, Bool.and_eq_true] at hok
      have hneedv : needV v ≤ f ∧ needA t' ≤ f := by
        simp only [needA] at hneed
        constructor
        · have := le_max_left (needV v) (needA t'); omega
        · have := le_max_right (needV v) (needA t'); omega
      have hfmt : printArr d (GoArr.cons v t') ++ (wsl ++ ']' :: rest) =
          ',' :: (('\n' :: tabs d) ++ (printVal d v ++
            (printArr d t' ++ (wsl ++ ']' :: rest)))) := by
        show (',' :: '\n' :: (tabs d ++ printVal d v ++ printArr d t')) ++
          (wsl ++ ']' :: rest) = _
        simp
      rw [hfmt, parseArrTail_comma]
      have hIH := parse_printVal v d f ('\n' :: tabs d)
        (printArr d t' ++ (wsl ++ ']' :: rest)) hok.1 hneedv.1 (allWs_nl_tabs d)
        (headNotDigit_arrCtx hwsl d t' rest)
      rw [hIH]
      have hT := parse_printArrTail t' d f wsl rest hok.2 hneedv.2 hwsl
      simp only [hT]
  termination_by (sizeOf t, 0)

/-- Parsing the printed remainder of an object followed by whitespace and
the closing brace. -/
theorem parse_printObjTail (t : GoObj) (d fuel : Nat) (wsl rest : List Char)
    (hok : okObj t = true) (hneed : needO t ≤ fuel)
    (hwsl : ∀ c ∈ wsl, isWsChar c = true) :
    parseObjTail fuel (printObj d t ++ (wsl ++ '\x7d' :: rest)) = some (t, rest) := by
  cases fuel with
  | zero => exact absurd hneed (by have := one_le_needO t; omega)
  | succ f =>
    cases t with
    | nil =>
      rw [show printObj d GoObj.nil ++ (wsl ++ '\x7d' :: rest) = wsl ++ '\x7d' :: rest
        from by simp [printObj]]
      rw [parseObjTail, skipWs_pre hwsl (by rfl)]
      rfl
    | cons k v t' =>
      simp only [okObj, Bool.and_eq_true] at hok
      have hneedv : 1 + needV v ≤ f ∧ needO t' ≤ f := by
        simp only [needO] at hneed
        constructor
        · have := le_max_left (1 + needV v) (needO t'); omega
        · have := le_max_right (1 + needV v) (needO t'); omega
      have hfmt : printObj d (GoObj.cons k v t') ++ (wsl ++ '\x7d' :: rest) =
          ',' :: (('\n' :: tabs d) ++ (quoteStr k ++ (':' :: ' ' :: (printVal d v ++
            (printObj d t' ++ (wsl ++ '\x7d' :: rest)))))) := by
        show (',' :: '\n' :: (tabs d ++ quoteStr k ++ ':' :: ' ' :: printVal d v ++
          printObj d t')) ++ (wsl ++ '\x7d' :: rest) = _
        simp
      rw [hfmt, parseObjTail_comma]
      have hIH := parse_printMember v k d f ('\n' :: tabs d)
        (printObj d t' ++ (wsl ++ '\x7d' :: rest)) hok.1 hneedv.1 (allWs_nl_tabs d)
        (headNotDigit_objCtx hwsl d t' rest)
      rw [hIH]
      have hT := parse_printObjTail t' d f wsl rest hok.2 hneedv.2 hwsl
      simp only [hT]
  termination_by (sizeOf t, 0)
end

mutual
/-- The parser's fuel requirement never exceeds the printed length plus
one. -/
theorem needV_le_print (v : GoVal) (d : Nat) : needV v ≤ (printVal d v).length + 1 := by
  cases v with
  | null => simp [needV, printVal]
  | bool b => cases b <;> simp [needV, printVal]
  | num n => simp only [needV]; omega
  | str s => simp only [needV]; omega
  | arr a =>
    cases a with
    | nil => simp [needV, printVal]
    | cons v t =>
      have h1 := needV_le_print v (d + 1)
      have h2 := needA_le_print t (d + 1)
      simp only [needV, printVal, List.length_cons, List.length_append]
      omega
  | obj o =>
    cases o with
    | nil => simp [needV, printVal]
    | cons k v t =>
      have h1 := needV_le_print v (d + 1)
      have h2 := needO_le_print t (d + 1)
      simp only [needV, printVal, List.length_cons, List.length_append]
      omega
  | unsupported => simp [needV, printVal]
theorem needA_le_print (t : GoArr) (d : Nat) : needA t ≤ (printArr d t).length + 1 := by
  cases t with
  | nil => simp [needA, printArr]
  | cons v t' =>
    have h1 := needV_le_print v d
    have h2 := needA_le_print t' d
    simp only [needA, printArr, List.length_cons, List.length_append]
    omega
theorem needO_le_print (t : GoObj) (d : Nat) : needO t ≤ (printObj d t).length + 1 := by
  cases t with
  | nil => simp [needO, printObj]
  | cons k v t' =>
    have h1 := needV_le_print v d
    have h2 := needO_le_print t' d
    simp only [needO, printObj, List.length_cons, List.length_append]
    omega
end

/-- Round trip of the modelled `encoding/json` codec: unmarshalling the
marshalled bytes plus the trailing newline the store appends returns the
original value. -/
theorem unmarshal_marshalIndent {v : GoVal} {b : String} (h : marshalIndent v = some b) :
    unmarshal (b ++ "\n") = some v := by
  rw [marshalIndent] at h
  split at h
  · rename_i hok
    have hb : b = String.mk (printVal 0 v) := by
      simpa using h.symm
    subst hb
    have hdata : (String.mk (printVal 0 v) ++ "\n").data = printVal 0 v ++ ['\n'] := rfl
    rw [unmarshal, hdata]
    have hP := parse_printVal v 0 ((printVal 0 v ++ ['\n']).length + 1) [] ['\n'] hok
      (by
        have := needV_le_print v 0
        simp only [List.length_append, List.length_cons, List.length_nil]
        omega)
      (by simp) (by rfl)
    rw [List.nil_append] at hP
    simp only [hP]
    rfl
  · exact absurd h (by simp)

/-! ## Filesystem layer: the `os` operations the store calls

The filesystem is an association list from (cleaned) path strings to
entries, plus a list of paths on which stat-like system calls fail with a
permission error (modelling EACCES, which `os.IsNotExist` does not
match).  Lookup takes the first matching key; mutating operations keep at
most one entry per key. -/

inductive Entry where
  | file : String → Entry
  | dir : Entry
deriving DecidableEq

structure FS where
  entries : List (String × Entry)
  denied : List String
deriving DecidableEq

inductive FsError where
  | notExist
  | permission
  | notADir
  | isDir
deriving DecidableEq

def assocFind {α : Type} : List (String × α) → String → Option α
  | [], _ => none
  | (k, v) :: rest, p => if k = p then some v else assocFind rest p

def FS.lookup (fs : FS) (p : String) : Option Entry := assocFind fs.entries p

def setEntry (l : List (String × Entry)) (p : String) (e : Entry) :
    List (String × Entry) :=
  (p, e) :: l.filter (fun kv => kv.1 ≠ p)

/-- `os.Stat`: the entry at a path, `notExist` if absent, `permission`
for a denied path. -/
def osStat (fs : FS) (p : String) : Except FsError Entry :=
  if p ∈ fs.denied then .error .permission
  else
    match fs.lookup p with
    | some e => .ok e
    | none => .error .notExist

/-- The repository's `stat` helper: `os.Stat` on the bare path and, only
when that does not exist, on the path with `.json` appended. -/
def statJson (fs : FS) (p : String) : Except FsError Entry :=
  match osStat fs p with
  | .error .notExist => osStat fs (p ++ ".json")
  | r => r

/-- The chain of prefix paths `MkdirAll` creates, one per component. -/
def ancestorPaths (p : String) : List String :=
  (List.range (splitSlash p.data).length).map
    (fun i => String.mk (joinSlash ((splitSlash p.data).take (i + 1))))

def mkdirStep (fs : FS) (q : String) : Except FsError FS :=
  match fs.lookup q with
  | some .dir => .ok fs
  | some (.file _) => .error .notADir
  | none => .ok ⟨setEntry fs.entries q .dir, fs.denied⟩

def mkdirList : List String → FS → Except FsError FS
  | [], fs => .ok fs
  | q :: rest, fs =>
    match mkdirStep fs q with
    | .error e => .error e
    | .ok fs1 => mkdirList rest fs1

/-- `os.MkdirAll`: succeed at once on an existing directory, fail on an
existing file, otherwise create every missing ancestor then the path. -/
def mkdirAllGo (fs : FS) (p : String) : Except FsError FS :=
  match fs.lookup p with
  | some .dir => .ok fs
  | some (.file _) => .error .notADir
  | none => mkdirList (ancestorPaths p) fs

/-- Parent directory of a path (`""` for a single-component path, meaning
the working directory). -/
def parentPath (p : String) : String :=
  if (splitSlash p.data).length ≤ 1 then ""
  else String.mk (joinSlash ((splitSlash p.data).dropLast))

/-- `os.WriteFile`: create or truncate; the parent must be a directory
(single-component paths live in the working directory). -/
def writeFileGo (fs : FS) (p : String) (content : String) : Except FsError FS :=
  if p ∈ fs.denied then .error .permission
  else
    match fs.lookup p with
    | some .dir => .error .isDir
    | _ =>
      if (splitSlash p.data).length ≤ 1 ∨ fs.lookup (parentPath p) = some .dir then
        .ok ⟨setEntry fs.entries p (.file content), fs.denied⟩
      else .error .notExist

/-- `os.ReadFile`. -/
def readFileGo (fs : FS) (p : String) : Except FsError String :=
  if p ∈ fs.denied then .error .permission
  else
    match fs.lookup p with
    | some (.file b) => .ok b
    | some .dir => .error .isDir
    | none => .error .notExist

/-- The name under `dirp` a key addresses, when it is a direct child. -/
def dropStart : List Char → List Char → Option (List Char)
  | [], l => some l
  | _ :: _, [] => none
  | a :: as, b :: bs => if a = b then dropStart as bs else none

def childNameOf (dirp k : String) : Option String :=
  match dropStart (dirp.data ++ ['/']) k.data with
  | none => none
  | some r => if r ≠ [] ∧ '/' ∉ r then some (String.mk r) else none

/-- Whether `k` lies strictly below `top`. -/
def underOf (top k : String) : Bool :=
  (dropStart (top.data ++ ['/']) k.data).isSome

/-- Lexicographic order on rendered strings, the order `os.ReadDir`
sorts filenames in. -/
def lexLe : List Char → List Char → Bool
  | [], _ => true
  | _ :: _, [] => false
  | a :: as, b :: bs => if a < b then true else if a = b then lexLe as bs else false

/-- `os.ReadDir`: the names of the direct children of a directory, sorted
by name as Go returns them. -/
def readDirGo (fs : FS) (p : String) : Except FsError (List String) :=
  if p ∈ fs.denied then .error .permission
  else
    match fs.lookup p with
    | some .dir =>
      .ok (List.insertionSort (fun a b : String => lexLe a.data b.data = true)
        (fs.entries.filterMap (fun kv => childNameOf p kv.1)))
    | some (.file _) => .error .notADir
    | none => .error .notExist

/-- `os.Rename`: move an entry (and, for directories, its subtree) onto a
target, replacing a non-directory target; errors mirror the common cases. -/
def renameGo (fs : FS) (old new : String) : Except FsError FS :=
  match fs.lookup old with
  | none => .error .notExist
  | some _ =>
    match fs.lookup new with
    | some .dir => .error .isDir
    | _ =>
      .ok ⟨(fs.entries.filter (fun kv => kv.1 ≠ new)).map
        (fun kv =>
          if kv.1 = old then (new, kv.2)
          else
            match dropStart (old.data ++ ['/']) kv.1.data with
            | some r => (String.mk (new.data ++ '/' :: r), kv.2)
            | none => kv), fs.denied⟩

/-- The state `os.RemoveAll` leaves on success: the path and everything
below it dropped (removing a missing path succeeds). -/
def removeAllCore (fs : FS) (p : String) : FS :=
  ⟨fs.entries.filter (fun kv => kv.1 ≠ p ∧ underOf p kv.1 = false), fs.denied⟩

/-- `os.RemoveAll`: drop the path and everything below it; removing a
missing path succeeds, a denied path fails with the permission error,
as with the other modelled `os` calls. -/
def removeAllGo (fs : FS) (p : String) : Except FsError FS :=
  if p ∈ fs.denied then .error .permission else .ok (removeAllCore fs p)

/-! ## The store: `Driver` and its operations

`Driver` carries the root directory and the lock registry
(`mutexes map[string]*sync.Mutex` is modelled as an association list from
collection name to a lock handle, a `Nat` identifying the `sync.Mutex`
instance).  Locks only matter through the registry's contents: the
operations are modelled sequentially, lock acquisition and release being
invisible, which is exactly the per-operation view of the serialized
executions the per-collection mutex produces. -/

structure Driver where
  dir : String
  mutexes : List (String × Nat)
deriving DecidableEq

/-- `Driver.getOrCreateMutex`: under the registry guard, return the
existing lock for the collection or insert a fresh one. -/
def getOrCreateMutex (d : Driver) (collection : String) : Driver × Nat :=
  match assocFind d.mutexes collection with
  | some m => (d, m)
  | none =>
    (⟨d.dir, d.mutexes ++ [(collection, d.mutexes.length)]⟩, d.mutexes.length)

deriving instance DecidableEq for Except

inductive DbError where
  | validation : String → DbError
  | notFoundDelete : String → DbError
  | fsErr : FsError → DbError
  | marshalErr
  | unmarshalErr
deriving DecidableEq

/-- `Driver.Write`: validate, lock, `MkdirAll`, `MarshalIndent` plus a
trailing newline, write the `.json.tmp` sibling, rename onto `.json`. -/
def Driver.write (d : Driver) (fs : FS) (collection resources : String) (v : GoVal) :
    Driver × FS × Option DbError :=
  if collection = "" then
    (d, fs, some (.validation "missing collection - no place to save records"))
  else if resources = "" then
    (d, fs, some (.validation "missing resources - unable to save record (no name)"))
  else
    let d1 := (getOrCreateMutex d collection).1
    let dir := join2 d.dir collection
    let fnlPath := join2 dir (resources ++ ".json")
    let tmpPath := fnlPath ++ ".tmp"
    match mkdirAllGo fs dir with
    | .error e => (d1, fs, some (.fsErr e))
    | .ok fs1 =>
      match marshalIndent v with
      | none => (d1, fs1, some .marshalErr)
      | some b =>
        match writeFileGo fs1 tmpPath (b ++ "\n") with
        | .error e => (d1, fs1, some (.fsErr e))
        | .ok fs2 =>
          match renameGo fs2 tmpPath fnlPath with
          | .error e => (d1, fs2, some (.fsErr e))
          | .ok fs3 => (d1, fs3, none)

/-- `Driver.Read`: validate, stat with `.json` fallback, read the
`.json`-suffixed file, unmarshal into the destination. -/
def Driver.read (d : Driver) (fs : FS) (collection resources : String) :
    Except DbError GoVal :=
  if collection = "" then
    .error (.validation "missing collection - no place to read record")
  else if resources = "" then
    .error (.validation "missing resources - no place to read record")
  else
    let record := join3 d.dir collection resources
    match statJson fs record with
    | .error e => .error (.fsErr e)
    | .ok _ =>
      match readFileGo fs (record ++ ".json") with
      | .error e => .error (.fsErr e)
      | .ok b =>
        match unmarshal b with
        | some v => .ok v
        | none => .error .unmarshalErr

/-- The loop of `ReadAll`: read each directory entry's raw content in
order, aborting on the first failure. -/
def readEach (fs : FS) (dir : String) : List String → Except DbError (List String)
  | [] => .ok []
  | n :: rest =>
    match readFileGo fs (join2 dir n) with
    | .error e => .error (.fsErr e)
    | .ok b =>
      match readEach fs dir rest with
      | .error e => .error e
      | .ok bs => .ok (b :: bs)

/-- `Driver.ReadAll`: validate, stat the collection directory with
fallback, enumerate it, read every entry's raw content. -/
def Driver.readAll (d : Driver) (fs : FS) (collection : String) :
    Except DbError (List String) :=
  if collection = "" then
    .error (.validation "missing collection - no place to read records")
  else
    let dir := join2 d.dir collection
    match statJson fs dir with
    | .error e => .error (.fsErr e)
    | .ok _ =>
      match readDirGo fs dir with
      | .error e => .error (.fsErr e)
      | .ok names => readEach fs dir names

/-- `Driver.Delete`: no validation; lock, stat `Join(dir, Join(collection,
resources))` with fallback; a stat failure of any kind becomes the
"unable to find" error; a directory is removed recursively, a regular
file is removed under its `.json` name, and the `os.RemoveAll` error is
returned to the caller. -/
def Driver.delete (d : Driver) (fs : FS) (collection resources : String) :
    Driver × FS × Option DbError :=
  let path := join2 collection resources
  let d1 := (getOrCreateMutex d collection).1
  let dir := join2 d.dir path
  match statJson fs dir with
  | .error _ => (d1, fs, some (.notFoundDelete path))
  | .ok .dir =>
    match removeAllGo fs dir with
    | .error e => (d1, fs, some (.fsErr e))
    | .ok fs1 => (d1, fs1, none)
  | .ok (.file _) =>
    match removeAllGo fs (dir ++ ".json") with
    | .error e => (d1, fs, some (.fsErr e))
    | .ok fs1 => (d1, fs1, none)

/-- A store operation, for stating invariants over call sequences. -/
inductive Op where
  | write : String → String → GoVal → Op
  | read : String → String → Op
  | readAll : String → Op
  | delete : String → String → Op

def applyOp (st : Driver × FS) (op : Op) : Driver × FS :=
  match op with
  | .write c r v =>
    let res := st.1.write st.2 c r v
    (res.1, res.2.1)
  | .read _ _ => st
  | .readAll _ => st
  | .delete c r =>
    let res := st.1.delete st.2 c r
    (res.1, res.2.1)

def runOps (st : Driver × FS) (ops : List Op) : Driver × FS :=
  ops.foldl applyOp st

/-! ### Association list and path-string facts -/

theorem string_ext {a b : String} (h : a.data = b.data) : a = b := by
  cases a with
  | mk da =>
    cases b with
    | mk db => exact congrArg String.mk h

theorem assocFind_some_mem {α : Type} {l : List (String × α)} {p : String} {v : α}
    (h : assocFind l p = some v) : (p, v) ∈ l := by
  induction l with
  | nil => simp [assocFind] at h
  | cons kv rest ih =>
    obtain ⟨k, w⟩ := kv
    rw [assocFind] at h
    split at h
    · rename_i hk
      subst hk
      simp at h
      simp [h]
    · simp [ih h]

theorem assocFind_eq_none {α : Type} {l : List (String × α)} {p : String}
    (h : ∀ kv ∈ l, kv.1 ≠ p) : assocFind l p = none := by
  induction l with
  | nil => rfl
  | cons kv rest ih =>
    rw [assocFind]
    rw [if_neg (h kv (by simp))]
    exact ih (fun kv' h' => h kv' (by simp [h']))

theorem assocFind_filter_keep {α : Type} {l : List (String × α)} {p : String}
    {pred : String × α → Bool} (h : ∀ kv : String × α, kv.1 = p → pred kv = true) :
    assocFind (l.filter pred) p = assocFind l p := by
  induction l with
  | nil => rfl
  | cons kv rest ih =>
    by_cases hk : kv.1 = p
    · rw [List.filter_cons, if_pos (h kv hk)]
      obtain ⟨k, w⟩ := kv
      simp at hk
      subst hk
      rw [assocFind, assocFind, if_pos rfl, if_pos rfl]
    · rw [List.filter_cons]
      split
      · obtain ⟨k, w⟩ := kv
        rw [assocFind, assocFind]
        simp at hk
        rw [if_neg hk, if_neg hk]
        exact ih
      · obtain ⟨k, w⟩ := kv
        rw [assocFind]
        simp at hk
        rw [if_neg hk]
        exact ih

theorem assocFind_filter_of_none {α : Type} {l : List (String × α)} {p : String}
    (pred : String × α → Bool) (h : assocFind l p = none) :
    assocFind (l.filter pred) p = none := by
  induction l with
  | nil => rfl
  | cons kv rest ih =>
    rw [assocFind] at h
    split at h
    · simp at h
    · rename_i hne
      rw [List.filter_cons]
      split
      · rw [assocFind, if_neg hne]
        exact ih h
      · exact ih h

theorem assocFind_setEntry_self (l : List (String × Entry)) (p : String) (e : Entry) :
    assocFind (setEntry l p e) p = some e := by
  rw [setEntry, assocFind, if_pos rfl]

theorem assocFind_setEntry_other {l : List (String × Entry)} {p q : String} (e : Entry)
    (h : q ≠ p) : assocFind (setEntry l p e) q = assocFind l q := by
  rw [setEntry, assocFind, if_neg (fun he => h he.symm)]
  exact assocFind_filter_keep (fun kv hk => by simp [hk, h])

theorem assocFind_append_left {α : Type} {l1 : List (String × α)} {p : String} {v : α}
    (l2 : List (String × α)) (h : assocFind l1 p = some v) :
    assocFind (l1 ++ l2) p = some v := by
  induction l1 with
  | nil => simp [assocFind] at h
  | cons kv rest ih =>
    rw [List.cons_append, assocFind]
    rw [assocFind] at h
    split at h
    · rw [if_pos (by assumption)]
      exact h
    · rw [if_neg (by assumption)]
      exact ih h

theorem dropStart_append (a : List Char) (r : List Char) :
    dropStart a (a ++ r) = some r := by
  induction a with
  | nil => rfl
  | cons c cs ih => simp [dropStart, ih]

theorem dropStart_eq_some {a l r : List Char} (h : dropStart a l = some r) :
    l = a ++ r := by
  induction a generalizing l with
  | nil =>
    simp [dropStart] at h
    simp [h]
  | cons c cs ih =>
    cases l with
    | nil => simp [dropStart] at h
    | cons b bs =>
      rw [dropStart] at h
      split at h
      · rename_i he
        subst he
        simp [ih h]
      · simp at h

theorem string_append_ne {s t : String} (ht : t.data ≠ []) : s ++ t ≠ s := by
  intro h
  have : (s ++ t).data = s.data := by rw [h]
  rw [String.data_append] at this
  have : s.data.length + t.data.length = s.data.length := by
    rw [← List.length_append, this]
  have : t.data.length = 0 := by omega
  exact ht (List.length_eq_zero.mp this)

/-- Two slash-free heads followed by slash-separated tails coincide only
componentwise. -/
theorem sep_inj {a b x y : List Char} (ha : '/' ∉ a) (hb : '/' ∉ b)
    (h : a ++ '/' :: x = b ++ '/' :: y) : a = b ∧ x = y := by
  induction a generalizing b with
  | nil =>
    cases b with
    | nil => simpa using h
    | cons c bs =>
      simp at h
      exact absurd (by rw [h.1]; simp : '/' ∈ c :: bs) hb
  | cons c as ih =>
    cases b with
    | nil =>
      simp at h
      exact absurd (by rw [← h.1]; simp : '/' ∈ c :: as) ha
    | cons c' bs =>
      simp at h
      obtain ⟨h1, h2⟩ := h
      subst h1
      have := ih (fun hm => ha (by simp [hm])) (fun hm => hb (by simp [hm])) h2
      exact ⟨by simp [this.1], this.2⟩

/-! ### Facts about the modelled `os` operations -/

/-- One `MkdirAll` step only turns absent paths into directories. -/
theorem mkdirStep_invariant {fs fs' : FS} {q : String}
    (h : mkdirStep fs q = .ok fs') :
    fs'.denied = fs.denied ∧
      ∀ p, fs'.lookup p = fs.lookup p ∨ (fs.lookup p = none ∧ fs'.lookup p = some .dir) := by
  rw [mkdirStep] at h
  split at h
  · simp at h
    subst h
    exact ⟨rfl, fun p => Or.inl rfl⟩
  · simp at h
  · rename_i hq
    simp at h
    subst h
    refine ⟨rfl, fun p => ?_⟩
    by_cases hp : p = q
    · subst hp
      exact Or.inr ⟨hq, assocFind_setEntry_self _ _ _⟩
    · exact Or.inl (assocFind_setEntry_other _ hp)

theorem mkdirList_invariant (l : List String) :
    ∀ (fs fs' : FS), mkdirList l fs = .ok fs' →
      fs'.denied = fs.denied ∧
        ∀ p, fs'.lookup p = fs.lookup p ∨ (fs.lookup p = none ∧ fs'.lookup p = some .dir) := by
  induction l with
  | nil =>
    intro fs fs' h
    simp [mkdirList] at h
    subst h
    exact ⟨rfl, fun p => Or.inl rfl⟩
  | cons q rest ih =>
    intro fs fs' h
    rw [mkdirList] at h
    cases hstep : mkdirStep fs q with
    | error e => rw [hstep] at h; simp at h
    | ok fs1 =>
      rw [hstep] at h
      simp only [] at h
      obtain ⟨hd1, hl1⟩ := mkdirStep_invariant hstep
      obtain ⟨hd2, hl2⟩ := ih fs1 fs' h
      refine ⟨by rw [hd2, hd1], fun p => ?_⟩
      rcases hl2 p with h2 | h2
      · rcases hl1 p with h1 | h1
        · exact Or.inl (by rw [h2, h1])
        · exact Or.inr ⟨h1.1, by rw [h2, h1.2]⟩
      · rcases hl1 p with h1 | h1
        · exact Or.inr ⟨by rw [← h1, h2.1], h2.2⟩
        · exact Or.inr ⟨h1.1, h2.2⟩

/-- `MkdirAll` only turns absent paths into directories and touches no
file; it preserves the denied set. -/
theorem mkdirAllGo_invariant {fs fs' : FS} {p : String}
    (h : mkdirAllGo fs p = .ok fs') :
    fs'.denied = fs.denied ∧
      ∀ q, fs'.lookup q = fs.lookup q ∨ (fs.lookup q = none ∧ fs'.lookup q = some .dir) := by
  rw [mkdirAllGo] at h
  split at h
  · simp at h
    subst h
    exact ⟨rfl, fun q => Or.inl rfl⟩
  · simp at h
  · exact mkdirList_invariant _ fs fs' h

theorem writeFileGo_ok {fs fs' : FS} {p b : String}
    (h : writeFileGo fs p b = .ok fs') :
    fs' = ⟨setEntry fs.entries p (.file b), fs.denied⟩ ∧ p ∉ fs.denied := by
  rw [writeFileGo] at h
  split at h
  · simp at h
  · rename_i hden
    split at h
    · simp at h
    · split at h
      · simp at h
        exact ⟨h.symm, hden⟩
      · simp at h

theorem getOrCreateMutex_dir (d : Driver) (c : String) :
    ((getOrCreateMutex d c).1).dir = d.dir := by
  rw [getOrCreateMutex]
  split
  · rfl
  · rfl

/-- `.json` and `.json.tmp` as character lists. -/
def jsonExt : List Char := ['.', 'j', 's', 'o', 'n']

theorem data_append_json (s : String) : (s ++ ".json").data = s.data ++ jsonExt :=
  String.data_append s ".json"

/-- The state after a successful `Write`: the final `.json` file holds
exactly the serialization plus newline, no temp file remains, the denied
set is untouched, and the root is unchanged. -/
theorem write_success {d : Driver} {fs : FS} {c r : String} {v : GoVal}
    {d' : Driver} {fs' : FS} (hc : c ≠ "") (hr : r ≠ "")
    (h : d.write fs c r v = (d', fs', none)) :
    ∃ b, marshalIndent v = some b ∧
      fs'.lookup (join2 (join2 d.dir c) (r ++ ".json")) = some (.file (b ++ "\n")) ∧
      fs'.lookup (join2 (join2 d.dir c) (r ++ ".json") ++ ".tmp") = none ∧
      fs'.denied = fs.denied ∧ d'.dir = d.dir := by
  simp only [Driver.write, if_neg hc, if_neg hr] at h
  split at h
  · simp at h
  · rename_i fs1 hmk
    split at h
    · simp at h
    · rename_i b hmar
      split at h
      · simp at h
      · rename_i fs2 hwf
        split at h
        · simp at h
        · rename_i fs3 hrn
          simp at h
          obtain ⟨hd, hfs⟩ := h
          subst hd
          subst hfs
          obtain ⟨hfs2, hnd⟩ := writeFileGo_ok hwf
          subst hfs2
          set fnl := join2 (join2 d.dir c) (r ++ ".json") with hfnl
          set tmp := fnl ++ ".tmp" with htmp
          have htmpne : tmp ≠ fnl := string_append_ne (by decide)
          -- anatomy of the rename
          rw [renameGo] at hrn
          split at hrn
          · simp at hrn
          · split at hrn
            · simp at hrn
            · simp at hrn
              refine ⟨b, hmar, ?_, ?_, ?_, ?_⟩
              · -- the moved entry is first: the temp file was just prepended
                rw [← hrn]
                simp [FS.lookup, setEntry, assocFind, htmpne]
              · -- no key of the renamed filesystem is the temp path
                rw [← hrn]
                refine assocFind_eq_none ?_
                intro kv hkv
                rcases List.mem_map.mp hkv with ⟨kv0, hkv0, hmapped⟩
                by_cases hold : kv0.1 = tmp
                · rw [if_pos hold] at hmapped
                  rw [← hmapped]
                  exact fun he => htmpne he.symm
                · rw [if_neg hold] at hmapped
                  split at hmapped
                  · rename_i rsuf hds
                    rw [← hmapped]
                    intro he
                    have hdata : fnl.data ++ '/' :: rsuf =
                        fnl.data ++ ('.' :: 't' :: 'm' :: 'p' :: []) := by
                      have h1 := congrArg String.data he
                      rw [show tmp.data = fnl.data ++ ('.' :: 't' :: 'm' :: 'p' :: [])
                        from String.data_append fnl ".tmp"] at h1
                      exact h1
                    have := List.append_cancel_left hdata
                    simp at this
                  · rw [← hmapped]
                    exact hold
              · rw [← hrn]
                exact (mkdirAllGo_invariant hmk).1
              · exact getOrCreateMutex_dir d c

/-! ### Path corollaries for simple collection and record names -/

theorem simpleSeg_ne_empty {s : String} (h : SimpleSeg s.data) : s ≠ "" := by
  intro he
  exact h.1 (by rw [he])

theorem simpleSeg_append_json {r : String} (h : SimpleSeg r.data) :
    SimpleSeg (r.data ++ jsonExt) := by
  refine ⟨by simp [jsonExt], ?_, ?_, ?_⟩
  · intro hcon
    have := congrArg List.length hcon
    simp [jsonExt] at this
  · intro hcon
    have := congrArg List.length hcon
    simp [jsonExt] at this
  · intro hcon
    rcases List.mem_append.mp hcon with hm | hm
    · exact h.2.2.2 hm
    · simp [jsonExt] at hm

/-- For a normal root and simple collection and record names, the final
path of a write is literally `<root>/<collection>/<name>.json`. -/
theorem fnlPath_literal {root c r : String} (hroot : NormalPath root)
    (hc : SimpleSeg c.data) (hr : SimpleSeg r.data) :
    join2 (join2 root c) (r ++ ".json") =
      String.mk (root.data ++ '/' :: (c.data ++ '/' :: (r.data ++ jsonExt))) := by
  have h1 : join2 root c = String.mk (root.data ++ '/' :: c.data) :=
    join2_normal hroot (simpleName_normal hc)
  rw [h1]
  have h2 : join2 (String.mk (root.data ++ '/' :: c.data)) (r ++ ".json") =
      String.mk ((root.data ++ '/' :: c.data) ++ '/' :: (r ++ ".json").data) :=
    join2_normal (normalPath_append_seg hroot hc)
      (by
        have : NormalPath (String.mk (r.data ++ jsonExt)) :=
          simpleSeg_normalPath (simpleSeg_append_json hr)
        rwa [show String.mk (r.data ++ jsonExt) = r ++ ".json" from
          string_ext (by rw [data_append_json])] at this)
  rw [h2]
  apply string_ext
  simp [data_append_json, jsonExt]

/-- `Join(Join(root, c), r + ".json") = Join(root, c, r) + ".json"` for a
normal root, nonempty collection and simple record name: the two path
computations of `Write` and `Read` agree. -/
theorem join_fnl_split {root c r : String} (hroot : NormalPath root) (hc : c ≠ "")
    (hr : SimpleSeg r.data) :
    join2 (join2 root c) (r ++ ".json") = join3 root c r ++ ".json" := by
  have hjson : SimpleSeg (r.data ++ jsonExt) := simpleSeg_append_json hr
  have e1 := join2_join2_eq_render root c (r.data ++ jsonExt) hroot hc hjson
  have e2 := join3_eq_render root c r.data hroot hc hr
  rw [show String.mk (r.data ++ jsonExt) = r ++ ".json" from
    string_ext (by rw [data_append_json])] at e1
  rw [mk_data_eq] at e2
  rw [e1, e2]
  by_cases hS : relStack root c = []
  · rw [if_pos hS, if_pos hS]
  · rw [if_neg hS, if_neg hS]
    refine string_ext ?_
    rw [data_append_json]
    simp

/-- `Join(p, "") = Clean(p)`; for a normal path this is `p` itself. -/
theorem join2_empty_right {p : String} (hp : NormalPath p) : join2 p "" = p := by
  have hfilter : [p, ""].filter (fun e => e ≠ "") = [p] := by
    simp [List.filter, normalPath_ne_empty hp]
  simp only [join2, goJoin, hfilter]
  rw [if_neg (by simp)]
  have hj : joinSlash ([p].map String.data) = p.data := rfl
  rw [hj, mk_data_eq]
  exact clean_normal hp

/-- `Join(root, c, r)` for simple components is the literal path. -/
theorem join3_literal {root c r : String} (hroot : NormalPath root)
    (hc : SimpleSeg c.data) (hr : SimpleSeg r.data) :
    join3 root c r = String.mk (root.data ++ '/' :: (c.data ++ '/' :: r.data)) := by
  have hxne : r ≠ "" := simpleSeg_ne_empty hr
  have hfilter : [root, c, r].filter (fun e => e ≠ "") = [root, c, r] := by
    simp [List.filter, normalPath_ne_empty hroot, simpleSeg_ne_empty hc, hxne]
  simp only [join3, goJoin, hfilter]
  rw [if_neg (by simp)]
  have hj : joinSlash ([root, c, r].map String.data) =
      root.data ++ '/' :: (c.data ++ '/' :: r.data) := rfl
  rw [hj]
  refine clean_normal ?_
  intro x hx
  rw [show (String.mk (root.data ++ '/' :: (c.data ++ '/' :: r.data))).data =
    root.data ++ '/' :: (c.data ++ '/' :: r.data) from rfl, splitSlash_append,
    splitSlash_append, splitSlash_eq_single hc.2.2.2, splitSlash_eq_single hr.2.2.2] at hx
  rcases List.mem_append.mp hx with hm | hm
  · exact hroot x hm
  · rcases List.mem_append.mp hm with hm2 | hm2
    · simp at hm2; rwa [hm2]
    · simp at hm2; rwa [hm2]

/-! ## The claims -/

/-- Claim C1, amended: for a store whose root is a normal relative path,
every non-empty collection name, every record name that is a plain path
component (no slash, not `.` or `..`), and every serializable value, a
successful `write(collection, name, value)` followed by
`read(collection, name)` — with the record's two lookup paths not
permission-denied — returns a value deep-equal to the one written,
provided no other write to the same key happened in between. -/
theorem claim_C1_roundtrip (d : Driver) (fs : FS) (c r : String) (v : GoVal)
    (d' : Driver) (fs' : FS)
    (hroot : NormalPath d.dir) (hc : c ≠ "") (hr : SimpleSeg r.data)
    (hden1 : join3 d.dir c r ∉ fs.denied)
    (hden2 : join3 d.dir c r ++ ".json" ∉ fs.denied)
    (h : d.write fs c r v = (d', fs', none)) :
    d'.read fs' c r = .ok v := by
  have hrne : r ≠ "" := simpleSeg_ne_empty hr
  obtain ⟨b, hmar, hfnl, htmp, hden, hdir⟩ := write_success hc hrne h
  have hsplit : join2 (join2 d.dir c) (r ++ ".json") = join3 d.dir c r ++ ".json" :=
    join_fnl_split hroot hc hr
  rw [hsplit] at hfnl
  simp only [Driver.read, if_neg hc, if_neg hrne, hdir]
  have hrf : readFileGo fs' (join3 d.dir c r ++ ".json") = .ok (b ++ "\n") := by
    rw [readFileGo, if_neg (by rw [hden]; exact hden2), hfnl]
  have hstat : ∃ e, statJson fs' (join3 d.dir c r) = .ok e := by
    have hosB : osStat fs' (join3 d.dir c r) =
        (match fs'.lookup (join3 d.dir c r) with
          | some e => .ok e
          | none => .error .notExist) := by
      rw [osStat, if_neg (by rw [hden]; exact hden1)]
    cases hB : fs'.lookup (join3 d.dir c r) with
    | some e =>
      refine ⟨e, ?_⟩
      rw [statJson, hosB, hB]
    | none =>
      refine ⟨.file (b ++ "\n"), ?_⟩
      rw [statJson, hosB, hB]
      show osStat fs' (join3 d.dir c r ++ ".json") = _
      rw [osStat, if_neg (by rw [hden]; exact hden2), hfnl]
  obtain ⟨e, hstat⟩ := hstat
  simp only [hstat, hrf, unmarshal_marshalIndent hmar]

/-- Claim C1, counterexample to the original statement: with root `db`,
collection `users` and the non-empty record name `..`, the write succeeds
(no other write intervenes) yet the read does not return the written
value — `filepath.Join` resolves the `..` away, so the read consults
`db.json` instead of the written file. -/
theorem claim_C1_counterexample :
    ((⟨"db", []⟩ : Driver).write ⟨[("db", Entry.dir)], []⟩ "users" ".." GoVal.null).2.2 =
        none ∧
      (((⟨"db", []⟩ : Driver).write ⟨[("db", Entry.dir)], []⟩ "users" ".."
          GoVal.null).1.read
        (((⟨"db", []⟩ : Driver).write ⟨[("db", Entry.dir)], []⟩ "users" ".."
          GoVal.null).2.1) "users" ".." ≠ .ok GoVal.null) := by
  constructor
  · decide
  · decide

/-! Facts about `RemoveAll` and a shared read lemma. -/

theorem removeAllGo_ok {fs : FS} {p : String} (h : p ∉ fs.denied) :
    removeAllGo fs p = .ok (removeAllCore fs p) := by
  rw [removeAllGo, if_neg h]

theorem removeAll_denied (fs : FS) (p : String) : (removeAllCore fs p).denied = fs.denied := rfl

theorem removeAll_lookup_self (fs : FS) (p : String) : (removeAllCore fs p).lookup p = none := by
  refine assocFind_eq_none ?_
  intro kv hkv
  have := (List.mem_filter.mp hkv).2
  simp at this
  exact this.1

theorem removeAll_lookup_under {p q : String} (fs : FS) (h : underOf p q = true) :
    (removeAllCore fs p).lookup q = none := by
  refine assocFind_eq_none ?_
  intro kv hkv he
  have hf := (List.mem_filter.mp hkv).2
  simp at hf
  rw [he] at hf
  rw [hf.2] at h
  simp at h

theorem removeAll_lookup_other {p q : String} (fs : FS) (h1 : q ≠ p)
    (h2 : underOf p q = false) : (removeAllCore fs p).lookup q = fs.lookup q := by
  refine assocFind_filter_keep ?_
  intro kv hk
  simp [hk, h1, h2]

theorem removeAll_lookup_none {p q : String} (fs : FS) (h : fs.lookup q = none) :
    (removeAllCore fs p).lookup q = none :=
  assocFind_filter_of_none _ h

/-- Reading a record laid out normally (`.json` file present, bare path
absent, both accessible) returns the deserialization of the file's
content. -/
theorem read_via_json {d : Driver} {fs : FS} {c r b : String}
    (hc : c ≠ "") (hr : r ≠ "")
    (hden1 : join3 d.dir c r ∉ fs.denied)
    (hden2 : join3 d.dir c r ++ ".json" ∉ fs.denied)
    (hbare : fs.lookup (join3 d.dir c r) = none)
    (hjson : fs.lookup (join3 d.dir c r ++ ".json") = some (.file b)) :
    d.read fs c r = (match unmarshal b with
      | some v => .ok v
      | none => .error .unmarshalErr) := by
  simp only [Driver.read, if_neg hc, if_neg hr]
  have hstat : statJson fs (join3 d.dir c r) = .ok (.file b) := by
    rw [statJson, osStat, if_neg hden1, hbare]
    show osStat fs (join3 d.dir c r ++ ".json") = _
    rw [osStat, if_neg hden2, hjson]
  have hrf : readFileGo fs (join3 d.dir c r ++ ".json") = .ok b := by
    rw [readFileGo, if_neg hden2, hjson]
  simp only [hstat, hrf]

/-- Claim C2, counterexample to the original statement: `Delete` with an
empty collection name does not return a validation error and does perform
filesystem I/O — with both names empty it removes the store root and
returns success. -/
theorem claim_C2_counterexample :
    ((⟨"db", []⟩ : Driver).delete ⟨[("db", Entry.dir)], []⟩ "" "").2.2 = none ∧
      ((⟨"db", []⟩ : Driver).delete ⟨[("db", Entry.dir)], []⟩ "" "").2.1.entries = [] := by
  constructor
  · decide
  · decide

/-- Claim C2, amended: `write` and `read` reject an empty collection or
record name and `readAll` an empty collection name, returning a
validation error naming the missing field with driver and filesystem
untouched; `delete` performs no validation at all — it never returns a
validation error, an empty record name simply addresses the whole
collection directory, and an empty collection name makes the target path
be formed from the record name alone. -/
theorem claim_C2_validation :
    (∀ (d : Driver) (fs : FS) (r : String) (v : GoVal),
      d.write fs "" r v =
        (d, fs, some (.validation "missing collection - no place to save records"))) ∧
    (∀ (d : Driver) (fs : FS) (c : String) (v : GoVal), c ≠ "" →
      d.write fs c "" v =
        (d, fs, some (.validation "missing resources - unable to save record (no name)"))) ∧
    (∀ (d : Driver) (fs : FS) (r : String),
      d.read fs "" r = .error (.validation "missing collection - no place to read record")) ∧
    (∀ (d : Driver) (fs : FS) (c : String), c ≠ "" →
      d.read fs c "" = .error (.validation "missing resources - no place to read record")) ∧
    (∀ (d : Driver) (fs : FS),
      d.readAll fs "" =
        .error (.validation "missing collection - no place to read records")) ∧
    (∀ (d : Driver) (fs : FS) (c r msg : String),
      (d.delete fs c r).2.2 ≠ some (.validation msg)) := by
  refine ⟨?_, ?_, ?_, ?_, ?_, ?_⟩
  · intro d fs r v
    rw [Driver.write, if_pos rfl]
  · intro d fs c v hc
    rw [Driver.write, if_neg hc, if_pos rfl]
  · intro d fs r
    rw [Driver.read, if_pos rfl]
  · intro d fs c hc
    rw [Driver.read, if_neg hc, if_pos rfl]
  · intro d fs
    rw [Driver.readAll, if_pos rfl]
  · intro d fs c r msg
    simp only [Driver.delete]
    split
    · simp
    · split
      · simp
      · simp
    · split
      · simp
      · simp

/-- Claim C2, witness: the second validation clause at a concrete input. -/
theorem claim_C2_validation_witness :
    (⟨"db", []⟩ : Driver).write ⟨[], []⟩ "users" "" GoVal.null =
      (⟨"db", []⟩, ⟨[], []⟩,
        some (.validation "missing resources - unable to save record (no name)")) :=
  claim_C2_validation.2.1 ⟨"db", []⟩ ⟨[], []⟩ "users" GoVal.null (by decide)

/-- Claim C3: after a successful write with simple names over a normal
root, the file `<root>/<collection>/<name>.json` holds exactly the
indented serialization plus the trailing newline, and nothing remains at
the temporary sibling path `<root>/<collection>/<name>.json.tmp` the
write staged and renamed from. -/
theorem claim_C3_write_files (d : Driver) (fs : FS) (c r : String) (v : GoVal)
    (d' : Driver) (fs' : FS) (hroot : NormalPath d.dir)
    (hc : SimpleSeg c.data) (hr : SimpleSeg r.data)
    (h : d.write fs c r v = (d', fs', none)) :
    ∃ b, marshalIndent v = some b ∧
      fs'.lookup (String.mk (d.dir.data ++ '/' :: (c.data ++ '/' :: (r.data ++ jsonExt)))) =
        some (.file (b ++ "\n")) ∧
      fs'.lookup (String.mk (d.dir.data ++ '/' :: (c.data ++ '/' :: (r.data ++ jsonExt)))
        ++ ".tmp") = none := by
  obtain ⟨b, hmar, hfnl, htmp, hden, hdir⟩ :=
    write_success (simpleSeg_ne_empty hc) (simpleSeg_ne_empty hr) h
  rw [fnlPath_literal hroot hc hr] at hfnl htmp
  exact ⟨b, hmar, hfnl, htmp⟩

/-- Claim C3, witness: the concrete write of C1's witness, examined on
disk. -/
theorem claim_C3_write_files_witness :
    ∃ b, marshalIndent GoVal.null = some b ∧
      (((⟨"db", []⟩ : Driver).write ⟨[("db", Entry.dir)], []⟩ "users" "John"
          GoVal.null).2.1).lookup
        (String.mk (("db" : String).data ++ '/' :: (("users" : String).data ++ '/' ::
          (("John" : String).data ++ jsonExt)))) = some (.file (b ++ "\n")) ∧
      (((⟨"db", []⟩ : Driver).write ⟨[("db", Entry.dir)], []⟩ "users" "John"
          GoVal.null).2.1).lookup
        (String.mk (("db" : String).data ++ '/' :: (("users" : String).data ++ '/' ::
          (("John" : String).data ++ jsonExt))) ++ ".tmp") = none :=
  claim_C3_write_files ⟨"db", []⟩ ⟨[("db", Entry.dir)], []⟩ "users" "John" GoVal.null
    ((⟨"db", []⟩ : Driver).write ⟨[("db", Entry.dir)], []⟩ "users" "John" GoVal.null).1
    ((⟨"db", []⟩ : Driver).write ⟨[("db", Entry.dir)], []⟩ "users" "John" GoVal.null).2.1
    (by decide) (by decide) (by decide) (by decide)

/-- Claim C4, counterexample to the original statement: when
serialization fails, the collection directory has nevertheless been
created — `os.MkdirAll` runs before `json.MarshalIndent` in `Write`. -/
theorem claim_C4_counterexample :
    ((⟨"db", []⟩ : Driver).write ⟨[("db", Entry.dir)], []⟩ "newcoll" "x"
        GoVal.unsupported).2.2 = some .marshalErr ∧
      (⟨[("db", Entry.dir)], []⟩ : FS).lookup "db/newcoll" = none ∧
      ((⟨"db", []⟩ : Driver).write ⟨[("db", Entry.dir)], []⟩ "newcoll" "x"
        GoVal.unsupported).2.1.lookup "db/newcoll" = some .dir := by
  refine ⟨?_, ?_, ?_⟩
  · decide
  · decide
  · decide

/-- Claim C4, amended: if serialization fails, the write returns the
serialization error and no file is created or modified — the prior final
file is untouched — but the collection directory (and any missing
ancestor) has already been created, because directory creation precedes
serialization. -/
theorem claim_C4_serialization_failure (d : Driver) (fs : FS) (c r : String) (v : GoVal)
    (d' : Driver) (fs' : FS) (hc : c ≠ "") (hr : r ≠ "")
    (h : d.write fs c r v = (d', fs', some .marshalErr)) :
    marshalIndent v = none ∧ fs'.denied = fs.denied ∧
      (∀ p b, fs'.lookup p = some (.file b) ↔ fs.lookup p = some (.file b)) ∧
      (∀ p, fs'.lookup p = fs.lookup p ∨
        (fs.lookup p = none ∧ fs'.lookup p = some .dir)) := by
  simp only [Driver.write, if_neg hc, if_neg hr] at h
  split at h
  · simp at h
  · rename_i fs1 hmk
    split at h
    · simp at h
      obtain ⟨hd, hfs⟩ := h
      subst hfs
      rename_i hmar
      obtain ⟨hden, hinv⟩ := mkdirAllGo_invariant hmk
      refine ⟨hmar, hden, ?_, hinv⟩
      intro p b
      rcases hinv p with h1 | h1
      · rw [h1]
      · constructor
        · intro hf
          rw [h1.2] at hf
          simp at hf
        · intro hf
          rw [h1.1] at hf
          simp at hf
    · split at h
      · simp at h
      · split at h
        · simp at h
        · simp at h

/-- Claim C4, witness: the amended statement at the counterexample's
input. -/
theorem claim_C4_serialization_failure_witness :
    marshalIndent GoVal.unsupported = none ∧
      ((⟨"db", []⟩ : Driver).write ⟨[("db", Entry.dir)], []⟩ "newcoll" "x"
        GoVal.unsupported).2.1.denied = (⟨[("db", Entry.dir)], []⟩ : FS).denied ∧
      (∀ p b,
        ((⟨"db", []⟩ : Driver).write ⟨[("db", Entry.dir)], []⟩ "newcoll" "x"
          GoVal.unsupported).2.1.lookup p = some (.file b) ↔
        (⟨[("db", Entry.dir)], []⟩ : FS).lookup p = some (.file b)) ∧
      (∀ p,
        ((⟨"db", []⟩ : Driver).write ⟨[("db", Entry.dir)], []⟩ "newcoll" "x"
          GoVal.unsupported).2.1.lookup p = (⟨[("db", Entry.dir)], []⟩ : FS).lookup p ∨
        ((⟨[("db", Entry.dir)], []⟩ : FS).lookup p = none ∧
          ((⟨"db", []⟩ : Driver).write ⟨[("db", Entry.dir)], []⟩ "newcoll" "x"
            GoVal.unsupported).2.1.lookup p = some .dir)) :=
  claim_C4_serialization_failure ⟨"db", []⟩ ⟨[("db", Entry.dir)], []⟩ "newcoll" "x"
    GoVal.unsupported
    ((⟨"db", []⟩ : Driver).write ⟨[("db", Entry.dir)], []⟩ "newcoll" "x" GoVal.unsupported).1
    ((⟨"db", []⟩ : Driver).write ⟨[("db", Entry.dir)], []⟩ "newcoll" "x"
      GoVal.unsupported).2.1
    (by decide) (by decide) (by decide)

/-- Claim C5: for non-empty names (and accessible paths), `Read` stats
the bare path `<dir>/<collection>/<name>` and falls back to the same path
with `.json` appended; when neither exists it returns the not-found
error, and otherwise it reads the `.json`-suffixed file's content and
deserializes it, propagating a deserialization failure rather than
returning any default value. -/
theorem claim_C5_read_resolution (d : Driver) (fs : FS) (c r : String)
    (hc : c ≠ "") (hr : r ≠ "")
    (hden1 : join3 d.dir c r ∉ fs.denied)
    (hden2 : join3 d.dir c r ++ ".json" ∉ fs.denied) :
    (fs.lookup (join3 d.dir c r) = none ∧ fs.lookup (join3 d.dir c r ++ ".json") = none →
      d.read fs c r = .error (.fsErr .notExist)) ∧
    (∀ b, (fs.lookup (join3 d.dir c r) ≠ none ∨
        fs.lookup (join3 d.dir c r ++ ".json") ≠ none) →
      fs.lookup (join3 d.dir c r ++ ".json") = some (.file b) →
      d.read fs c r = (match unmarshal b with
        | some v => .ok v
        | none => .error .unmarshalErr)) := by
  constructor
  · intro ⟨hbare, hjson⟩
    simp only [Driver.read, if_neg hc, if_neg hr]
    have hstat : statJson fs (join3 d.dir c r) = .error .notExist := by
      rw [statJson, osStat, if_neg hden1, hbare]
      show osStat fs (join3 d.dir c r ++ ".json") = _
      rw [osStat, if_neg hden2, hjson]
    simp only [hstat]
  · intro b hex hjson
    simp only [Driver.read, if_neg hc, if_neg hr]
    have hstat : ∃ e, statJson fs (join3 d.dir c r) = .ok e := by
      cases hB : fs.lookup (join3 d.dir c r) with
      | some e =>
        refine ⟨e, ?_⟩
        rw [statJson, osStat, if_neg hden1, hB]
      | none =>
        refine ⟨.file b, ?_⟩
        rw [statJson, osStat, if_neg hden1, hB]
        show osStat fs (join3 d.dir c r ++ ".json") = _
        rw [osStat, if_neg hden2, hjson]
    obtain ⟨e, hstat⟩ := hstat
    have hrf : readFileGo fs (join3 d.dir c r ++ ".json") = .ok b := by
      rw [readFileGo, if_neg hden2, hjson]
    simp only [hstat, hrf]

/-- Claim C5, witness: reading a concretely laid out record. -/
theorem claim_C5_read_resolution_witness :
    (⟨"db", []⟩ : Driver).read
      ⟨[("db", Entry.dir), ("db/users", Entry.dir),
        ("db/users/John.json", Entry.file "null\n")], []⟩ "users" "John" =
      .ok GoVal.null := by
  have h := (claim_C5_read_resolution ⟨"db", []⟩
    ⟨[("db", Entry.dir), ("db/users", Entry.dir),
      ("db/users/John.json", Entry.file "null\n")], []⟩ "users" "John"
    (by decide) (by decide) (by decide) (by decide)).2 "null\n"
    (Or.inr (by decide)) (by decide)
  rw [h]
  decide

/-- Claim C6: deleting a whole existing collection (`delete(collection,
"")` over a normal root, simple collection name, accessible paths)
removes the collection directory and every path below it, and a
subsequent `readAll` on that collection returns the not-found error. -/
theorem claim_C6_delete_collection (d : Driver) (fs : FS) (c : String)
    (hroot : NormalPath d.dir) (hc : SimpleSeg c.data)
    (hdir : fs.lookup (String.mk (d.dir.data ++ '/' :: c.data)) = some .dir)
    (hden1 : String.mk (d.dir.data ++ '/' :: c.data) ∉ fs.denied)
    (hden2 : String.mk (d.dir.data ++ '/' :: c.data) ++ ".json" ∉ fs.denied) :
    (d.delete fs c "").2.2 = none ∧
    (d.delete fs c "").2.1.lookup (String.mk (d.dir.data ++ '/' :: c.data)) = none ∧
    (∀ p, underOf (String.mk (d.dir.data ++ '/' :: c.data)) p = true →
      (d.delete fs c "").2.1.lookup p = none) ∧
    (d.delete fs c "").1.readAll (d.delete fs c "").2.1 c =
      .error (.fsErr .notExist) := by
  have hcne : c ≠ "" := simpleSeg_ne_empty hc
  have hpath : join2 c "" = c := join2_empty_right (simpleName_normal hc)
  have hdirp : join2 d.dir c = String.mk (d.dir.data ++ '/' :: c.data) :=
    join2_normal hroot (simpleName_normal hc)
  have hdel : d.delete fs c "" = ((getOrCreateMutex d c).1,
      removeAllCore fs (String.mk (d.dir.data ++ '/' :: c.data)), none) := by
    simp only [Driver.delete, hpath, hdirp]
    have hstat : statJson fs (String.mk (d.dir.data ++ '/' :: c.data)) = .ok .dir := by
      rw [statJson, osStat, if_neg hden1, hdir]
    simp only [hstat, removeAllGo_ok hden1]
  rw [hdel]
  refine ⟨rfl, removeAll_lookup_self fs _, fun p hp => removeAll_lookup_under fs hp, ?_⟩
  simp only [Driver.readAll, if_neg hcne, getOrCreateMutex_dir, hdirp]
  have hstat2 : statJson (removeAllCore fs (String.mk (d.dir.data ++ '/' :: c.data)))
      (String.mk (d.dir.data ++ '/' :: c.data)) =
      osStat (removeAllCore fs (String.mk (d.dir.data ++ '/' :: c.data)))
        (String.mk (d.dir.data ++ '/' :: c.data) ++ ".json") := by
    rw [statJson, osStat, if_neg (by rw [removeAll_denied]; exact hden1),
      removeAll_lookup_self fs _]
  rw [hstat2, osStat, if_neg (by rw [removeAll_denied]; exact hden2)]
  cases hj : (removeAllCore fs (String.mk (d.dir.data ++ '/' :: c.data))).lookup
      (String.mk (d.dir.data ++ '/' :: c.data) ++ ".json") with
  | none => rfl
  | some e =>
    have hrd : readDirGo (removeAllCore fs (String.mk (d.dir.data ++ '/' :: c.data)))
        (String.mk (d.dir.data ++ '/' :: c.data)) = .error .notExist := by
      rw [readDirGo, if_neg (by rw [removeAll_denied]; exact hden1),
        removeAll_lookup_self fs _]
    simp only [hrd]

/-- Claim C6, witness: deleting a concrete two-record collection. -/
theorem claim_C6_delete_collection_witness :
    ((⟨"db", []⟩ : Driver).delete
      ⟨[("db", Entry.dir), ("db/users", Entry.dir),
        ("db/users/John.json", Entry.file "null\n"),
        ("db/users/Paul.json", Entry.file "true\n")], []⟩ "users" "").2.2 = none ∧
    ((⟨"db", []⟩ : Driver).delete
      ⟨[("db", Entry.dir), ("db/users", Entry.dir),
        ("db/users/John.json", Entry.file "null\n"),
        ("db/users/Paul.json", Entry.file "true\n")], []⟩ "users" "").2.1.lookup
      (String.mk (("db" : String).data ++ '/' :: ("users" : String).data)) = none ∧
    (∀ p, underOf (String.mk (("db" : String).data ++ '/' :: ("users" : String).data))
        p = true →
      ((⟨"db", []⟩ : Driver).delete
        ⟨[("db", Entry.dir), ("db/users", Entry.dir),
          ("db/users/John.json", Entry.file "null\n"),
          ("db/users/Paul.json", Entry.file "true\n")], []⟩ "users" "").2.1.lookup p =
        none) ∧
    ((⟨"db", []⟩ : Driver).delete
      ⟨[("db", Entry.dir), ("db/users", Entry.dir),
        ("db/users/John.json", Entry.file "null\n"),
        ("db/users/Paul.json", Entry.file "true\n")], []⟩ "users" "").1.readAll
      (((⟨"db", []⟩ : Driver).delete
        ⟨[("db", Entry.dir), ("db/users", Entry.dir),
          ("db/users/John.json", Entry.file "null\n"),
          ("db/users/Paul.json", Entry.file "true\n")], []⟩ "users" "").2.1) "users" =
      .error (.fsErr .notExist) :=
  claim_C6_delete_collection ⟨"db", []⟩
    ⟨[("db", Entry.dir), ("db/users", Entry.dir),
      ("db/users/John.json", Entry.file "null\n"),
      ("db/users/Paul.json", Entry.file "true\n")], []⟩ "users"
    (by decide) (by decide) (by decide) (by decide) (by decide)

/-- The rendered data of a record's `.json` path, right-associated. -/
theorem json_path_data {root c r : String} (hroot : NormalPath root)
    (hc : SimpleSeg c.data) (hr : SimpleSeg r.data) :
    (join3 root c r ++ ".json").data =
      root.data ++ '/' :: (c.data ++ '/' :: (r.data ++ jsonExt)) := by
  rw [data_append_json, join3_literal hroot hc hr]
  show (root.data ++ '/' :: (c.data ++ '/' :: r.data)) ++ jsonExt = _
  simp

/-- Distinct (collection, name) pairs have distinct `.json` paths. -/
theorem json_path_ne {root c r c' n : String} (hroot : NormalPath root)
    (hc : SimpleSeg c.data) (hr : SimpleSeg r.data)
    (hc' : SimpleSeg c'.data) (hn : SimpleSeg n.data)
    (hne : ¬(c' = c ∧ n = r)) :
    join3 root c' n ++ ".json" ≠ join3 root c r ++ ".json" := by
  intro h
  have hdata : root.data ++ '/' :: (c'.data ++ '/' :: (n.data ++ jsonExt)) =
      root.data ++ '/' :: (c.data ++ '/' :: (r.data ++ jsonExt)) := by
    rw [← json_path_data hroot hc' hn, ← json_path_data hroot hc hr, h]
  have h2 := List.append_cancel_left hdata
  have h3 : c'.data ++ '/' :: (n.data ++ jsonExt) =
      c.data ++ '/' :: (r.data ++ jsonExt) := by
    simpa using h2
  obtain ⟨hcc, hnr⟩ := sep_inj hc'.2.2.2 hc.2.2.2 h3
  exact hne ⟨string_ext hcc, string_ext (List.append_cancel_right hnr)⟩

/-- No record's `.json` path lies strictly below another's. -/
theorem json_path_not_under {root c r c' n : String} (hroot : NormalPath root)
    (hc : SimpleSeg c.data) (hr : SimpleSeg r.data)
    (hc' : SimpleSeg c'.data) (hn : SimpleSeg n.data) :
    underOf (join3 root c r ++ ".json") (join3 root c' n ++ ".json") = false := by
  rw [underOf]
  cases hds : dropStart ((join3 root c r ++ ".json").data ++ ['/'])
      (join3 root c' n ++ ".json").data with
  | none => rfl
  | some m =>
    exfalso
    have heq := dropStart_eq_some hds
    rw [json_path_data hroot hc hr, json_path_data hroot hc' hn] at heq
    have heq2 : root.data ++ '/' :: (c'.data ++ '/' :: (n.data ++ jsonExt)) =
        root.data ++ '/' :: (c.data ++ '/' :: (r.data ++ (jsonExt ++ '/' :: m))) := by
      rw [heq]
      simp
    have h2 := List.append_cancel_left heq2
    have h3 : c'.data ++ '/' :: (n.data ++ jsonExt) =
        c.data ++ '/' :: (r.data ++ (jsonExt ++ '/' :: m)) := by
      simpa using h2
    obtain ⟨-, hnr⟩ := sep_inj hc'.2.2.2 hc.2.2.2 h3
    have hmem : '/' ∈ n.data ++ jsonExt := by
      rw [hnr]
      simp
    exact (simpleSeg_append_json hn).2.2.2 hmem

/-- Claim C7: deleting one existing record (normal root, simple names,
standard single-file layout, accessible paths) succeeds, removes that
record's `.json` file, and every other record — a sibling in the same
collection or a record of any other collection, laid out the same way —
still exists afterwards and reads back exactly as before the delete. -/
theorem claim_C7_delete_single (d : Driver) (fs : FS) (c r b : String)
    (hroot : NormalPath d.dir) (hc : SimpleSeg c.data) (hr : SimpleSeg r.data)
    (hbare : fs.lookup (join3 d.dir c r) = none)
    (hjson : fs.lookup (join3 d.dir c r ++ ".json") = some (.file b))
    (hden1 : join3 d.dir c r ∉ fs.denied)
    (hden2 : join3 d.dir c r ++ ".json" ∉ fs.denied) :
    (d.delete fs c r).2.2 = none ∧
    (d.delete fs c r).2.1.lookup (join3 d.dir c r ++ ".json") = none ∧
    (∀ c' n b', SimpleSeg c'.data → SimpleSeg n.data → ¬(c' = c ∧ n = r) →
      fs.lookup (join3 d.dir c' n) = none →
      fs.lookup (join3 d.dir c' n ++ ".json") = some (.file b') →
      join3 d.dir c' n ∉ fs.denied →
      join3 d.dir c' n ++ ".json" ∉ fs.denied →
      (d.delete fs c r).2.1.lookup (join3 d.dir c' n ++ ".json") =
        some (.file b') ∧
      (d.delete fs c r).1.read (d.delete fs c r).2.1 c' n = d.read fs c' n) := by
  have hpath : join2 c r = String.mk (c.data ++ '/' :: r.data) :=
    join2_normal (simpleName_normal hc) (simpleName_normal hr)
  have hlit : join3 d.dir c r = String.mk (d.dir.data ++ '/' :: (c.data ++ '/' :: r.data)) :=
    join3_literal hroot hc hr
  have hdir : join2 d.dir (join2 c r) = join3 d.dir c r := by
    rw [hpath, join2_normal hroot (normalPath_append_seg (simpleName_normal hc) hr), hlit]
  have hstat : statJson fs (join3 d.dir c r) = .ok (.file b) := by
    rw [statJson, osStat, if_neg hden1, hbare]
    show osStat fs (join3 d.dir c r ++ ".json") = _
    rw [osStat, if_neg hden2, hjson]
  have hdel : d.delete fs c r =
      ((getOrCreateMutex d c).1, removeAllCore fs (join3 d.dir c r ++ ".json"), none) := by
    simp only [Driver.delete, hdir, hstat, removeAllGo_ok hden2]
  rw [hdel]
  refine ⟨rfl, removeAll_lookup_self fs _, ?_⟩
  intro c' n b' hc' hn' hne hbare' hjson' hd1' hd2'
  have hneq : join3 d.dir c' n ++ ".json" ≠ join3 d.dir c r ++ ".json" :=
    json_path_ne hroot hc hr hc' hn' hne
  have hund : underOf (join3 d.dir c r ++ ".json") (join3 d.dir c' n ++ ".json") = false :=
    json_path_not_under hroot hc hr hc' hn'
  have hkeep : (removeAllCore fs (join3 d.dir c r ++ ".json")).lookup
      (join3 d.dir c' n ++ ".json") = some (.file b') := by
    rw [removeAll_lookup_other fs hneq hund, hjson']
  refine ⟨hkeep, ?_⟩
  have hdirg : ((getOrCreateMutex d c).1).dir = d.dir := getOrCreateMutex_dir d c
  have hL : ((getOrCreateMutex d c).1).read
      (removeAllCore fs (join3 d.dir c r ++ ".json")) c' n =
      (match unmarshal b' with
        | some v => .ok v
        | none => .error DbError.unmarshalErr) :=
    read_via_json (simpleSeg_ne_empty hc') (simpleSeg_ne_empty hn')
      (by rw [hdirg, removeAll_denied]; exact hd1')
      (by rw [hdirg, removeAll_denied]; exact hd2')
      (by rw [hdirg]; exact removeAll_lookup_none fs hbare')
      (by rw [hdirg]; exact hkeep)
  have hR : d.read fs c' n =
      (match unmarshal b' with
        | some v => .ok v
        | none => .error DbError.unmarshalErr) :=
    read_via_json (simpleSeg_ne_empty hc') (simpleSeg_ne_empty hn')
      hd1' hd2' hbare' hjson'
  rw [hL, hR]

/-- Claim C7, witness: deleting `John` keeps `Paul` intact and readable. -/
theorem claim_C7_delete_single_witness :
    ((⟨"db", []⟩ : Driver).delete
      ⟨[("db", Entry.dir), ("db/users", Entry.dir),
        ("db/users/John.json", Entry.file "null\n"),
        ("db/users/Paul.json", Entry.file "true\n")], []⟩ "users" "John").2.2 = none ∧
    ((⟨"db", []⟩ : Driver).delete
      ⟨[("db", Entry.dir), ("db/users", Entry.dir),
        ("db/users/John.json", Entry.file "null\n"),
        ("db/users/Paul.json", Entry.file "true\n")], []⟩ "users" "John").2.1.lookup
      (join3 "db" "users" "John" ++ ".json") = none ∧
    ((⟨"db", []⟩ : Driver).delete
      ⟨[("db", Entry.dir), ("db/users", Entry.dir),
        ("db/users/John.json", Entry.file "null\n"),
        ("db/users/Paul.json", Entry.file "true\n")], []⟩ "users" "John").2.1.lookup
      (join3 "db" "users" "Paul" ++ ".json") = some (Entry.file "true\n") ∧
    ((⟨"db", []⟩ : Driver).delete
      ⟨[("db", Entry.dir), ("db/users", Entry.dir),
        ("db/users/John.json", Entry.file "null\n"),
        ("db/users/Paul.json", Entry.file "true\n")], []⟩ "users" "John").1.read
      (((⟨"db", []⟩ : Driver).delete
        ⟨[("db", Entry.dir), ("db/users", Entry.dir),
          ("db/users/John.json", Entry.file "null\n"),
          ("db/users/Paul.json", Entry.file "true\n")], []⟩ "users" "John").2.1)
      "users" "Paul" = .ok (GoVal.bool true) := by
  obtain ⟨h1, h2, h3⟩ := claim_C7_delete_single ⟨"db", []⟩
    ⟨[("db", Entry.dir), ("db/users", Entry.dir),
      ("db/users/John.json", Entry.file "null\n"),
      ("db/users/Paul.json", Entry.file "true\n")], []⟩ "users" "John" "null\n"
    (by decide) (by decide) (by decide) (by decide) (by decide) (by decide) (by decide)
  obtain ⟨h4, h5⟩ := h3 "users" "Paul" "true\n" (by decide) (by decide)
    (by decide) (by decide) (by decide) (by decide) (by decide)
  refine ⟨h1, h2, h4, ?_⟩
  rw [h5]
  decide

/-- Claim C8, amended: `Delete` returns the "unable to find" error
exactly when the `stat`-with-fallback of the target fails for any reason
— not only when the target is absent under both forms: a permission
failure (any stat error) is also reported as not-found, never passed
through as an I/O error.  (A failure of the later `os.RemoveAll` step,
after a successful stat, is still returned to the caller as an I/O
error, as the model's success branches show.) -/
theorem claim_C8_delete_stat (d : Driver) (fs : FS) (c r : String) :
    (d.delete fs c r).2.2 = some (.notFoundDelete (join2 c r)) ↔
      ∃ e, statJson fs (join2 d.dir (join2 c r)) = .error e := by
  cases hstat : statJson fs (join2 d.dir (join2 c r)) with
  | error e =>
    have hd : d.delete fs c r =
        ((getOrCreateMutex d c).1, fs, some (.notFoundDelete (join2 c r))) := by
      simp only [Driver.delete, hstat]
    rw [hd]
    exact ⟨fun _ => ⟨e, rfl⟩, fun _ => rfl⟩
  | ok ent =>
    cases ent with
    | dir =>
      have hd : (d.delete fs c r).2.2 =
          (match removeAllGo fs (join2 d.dir (join2 c r)) with
            | .error e => some (DbError.fsErr e)
            | .ok _ => none) := by
        simp only [Driver.delete, hstat]
        cases removeAllGo fs (join2 d.dir (join2 c r)) with
        | error e => rfl
        | ok fs1 => rfl
      rw [hd]
      constructor
      · intro h
        cases hrm : removeAllGo fs (join2 d.dir (join2 c r)) with
        | error e' =>
          rw [hrm] at h
          simp at h
        | ok fs1 =>
          rw [hrm] at h
          simp at h
      · rintro ⟨e', he'⟩
        exact Except.noConfusion he'
    | file bb =>
      have hd : (d.delete fs c r).2.2 =
          (match removeAllGo fs (join2 d.dir (join2 c r) ++ ".json") with
            | .error e => some (DbError.fsErr e)
            | .ok _ => none) := by
        simp only [Driver.delete, hstat]
        cases removeAllGo fs (join2 d.dir (join2 c r) ++ ".json") with
        | error e => rfl
        | ok fs1 => rfl
      rw [hd]
      constructor
      · intro h
        cases hrm : removeAllGo fs (join2 d.dir (join2 c r) ++ ".json") with
        | error e' =>
          rw [hrm] at h
          simp at h
        | ok fs1 =>
          rw [hrm] at h
          simp at h
      · rintro ⟨e', he'⟩
        exact Except.noConfusion he'

/-- Claim C8, counterexample to the original statement: when the stat of
the delete target fails with a permission error, the error is not passed
through as an I/O error — `Delete` reports the target as not found, even
though its `.json` file exists. -/
theorem claim_C8_counterexample :
    ((⟨"db", []⟩ : Driver).delete
      ⟨[("db", Entry.dir), ("db/users", Entry.dir),
        ("db/users/John.json", Entry.file "null\n")],
       ["db/users/John"]⟩ "users" "John").2.2 =
      some (.notFoundDelete "users/John") ∧
    ((⟨"db", []⟩ : Driver).delete
      ⟨[("db", Entry.dir), ("db/users", Entry.dir),
        ("db/users/John.json", Entry.file "null\n")],
       ["db/users/John"]⟩ "users" "John").2.1.lookup "db/users/John.json" =
      some (Entry.file "null\n") := by
  constructor
  · decide
  · decide

/-- `getOrCreateMutex` on a mapped name returns the mapped handle and
leaves the driver unchanged. -/
theorem getOrCreateMutex_found {d : Driver} {c : String} {m : Nat}
    (h : assocFind d.mutexes c = some m) : getOrCreateMutex d c = (d, m) := by
  rw [getOrCreateMutex, h]

/-- `getOrCreateMutex` never removes or rebinds an existing registry
entry. -/
theorem getOrCreateMutex_preserve {d : Driver} {c : String} {m : Nat}
    (c' : String) (h : assocFind d.mutexes c = some m) :
    assocFind ((getOrCreateMutex d c').1).mutexes c = some m := by
  rw [getOrCreateMutex]
  cases hf : assocFind d.mutexes c' with
  | some m' => exact h
  | none => exact assocFind_append_left _ h

/-- The driver returned by `Write` is the input driver or the one
`getOrCreateMutex` produced for the collection. -/
theorem write_driver_cases (d : Driver) (fs : FS) (c r : String) (v : GoVal) :
    (d.write fs c r v).1 = d ∨ (d.write fs c r v).1 = (getOrCreateMutex d c).1 := by
  by_cases hc : c = ""
  · rw [Driver.write, if_pos hc]
    exact Or.inl rfl
  · by_cases hr : r = ""
    · rw [Driver.write, if_neg hc, if_pos hr]
      exact Or.inl rfl
    · refine Or.inr ?_
      simp only [Driver.write, if_neg hc, if_neg hr]
      split
      · rfl
      · split
        · rfl
        · split
          · rfl
          · split
            · rfl
            · rfl

/-- The driver returned by `Delete` is the one `getOrCreateMutex`
produced for the collection. -/
theorem delete_driver_eq (d : Driver) (fs : FS) (c r : String) :
    (d.delete fs c r).1 = (getOrCreateMutex d c).1 := by
  rw [Driver.delete]
  split
  · rfl
  · split
    · rfl
    · rfl
  · split
    · rfl
    · rfl

/-- One store operation preserves every existing registry binding. -/
theorem applyOp_mutex_preserve {c : String} {m : Nat} (st : Driver × FS) (op : Op)
    (h : assocFind st.1.mutexes c = some m) :
    assocFind (applyOp st op).1.mutexes c = some m := by
  cases op with
  | write c' r v =>
    show assocFind ((st.1.write st.2 c' r v).1).mutexes c = some m
    rcases write_driver_cases st.1 st.2 c' r v with hw | hw
    · rw [hw]
      exact h
    · rw [hw]
      exact getOrCreateMutex_preserve c' h
  | read c' r => exact h
  | readAll c' => exact h
  | delete c' r =>
    show assocFind ((st.1.delete st.2 c' r).1).mutexes c = some m
    rw [delete_driver_eq]
    exact getOrCreateMutex_preserve c' h

/-- A whole sequence of operations preserves every registry binding. -/
theorem runOps_mutex_preserve {c : String} {m : Nat} (ops : List Op)
    (st : Driver × FS) (h : assocFind st.1.mutexes c = some m) :
    assocFind (runOps st ops).1.mutexes c = some m := by
  induction ops generalizing st with
  | nil => exact h
  | cons op rest ih =>
    show assocFind (runOps (applyOp st op) rest).1.mutexes c = some m
    exact ih _ (applyOp_mutex_preserve st op h)

/-- Claim C9: the lock registry only grows — once a collection name is
bound to a lock handle, every sequence of store operations (writes,
reads, readAlls, deletes, including deleting that collection) keeps the
binding, and a later acquisition for that name returns the same handle. -/
theorem claim_C9_registry (d : Driver) (fs : FS) (ops : List Op) (c : String)
    (m : Nat) (h : assocFind d.mutexes c = some m) :
    assocFind (runOps (d, fs) ops).1.mutexes c = some m ∧
    (getOrCreateMutex (runOps (d, fs) ops).1 c).2 = m := by
  have hpres : assocFind (runOps (d, fs) ops).1.mutexes c = some m :=
    runOps_mutex_preserve ops (d, fs) h
  refine ⟨hpres, ?_⟩
  rw [getOrCreateMutex_found hpres]

/-- Claim C9, witness: the binding for `users` survives a write, a
delete of the whole collection and a further write, and is returned
again afterwards. -/
theorem claim_C9_registry_witness :
    assocFind (runOps (⟨"db", [("users", 0)]⟩, ⟨[("db", Entry.dir)], []⟩)
      [Op.write "users" "John" GoVal.null, Op.delete "users" "",
       Op.write "users" "Paul" (GoVal.bool true), Op.readAll "users"]).1.mutexes
      "users" = some 0 ∧
    (getOrCreateMutex (runOps (⟨"db", [("users", 0)]⟩, ⟨[("db", Entry.dir)], []⟩)
      [Op.write "users" "John" GoVal.null, Op.delete "users" "",
       Op.write "users" "Paul" (GoVal.bool true), Op.readAll "users"]).1
      "users").2 = 0 :=
  claim_C9_registry ⟨"db", [("users", 0)]⟩ ⟨[("db", Entry.dir)], []⟩
    [Op.write "users" "John" GoVal.null, Op.delete "users" "",
     Op.write "users" "Paul" (GoVal.bool true), Op.readAll "users"] "users" 0
    (by decide)

/-- A direct child key renders back to its name under `childNameOf`. -/
theorem childNameOf_literal {dirp n : String} (hn : SimpleSeg n.data) :
    childNameOf dirp (String.mk (dirp.data ++ '/' :: n.data)) = some n := by
  rw [childNameOf]
  have hds : dropStart (dirp.data ++ ['/']) (dirp.data ++ '/' :: n.data) =
      some n.data := by
    have hassoc : dirp.data ++ ['/'] ++ n.data = dirp.data ++ '/' :: n.data := by simp
    rw [← hassoc]
    exact dropStart_append _ _
  rw [show (String.mk (dirp.data ++ '/' :: n.data)).data =
    dirp.data ++ '/' :: n.data from rfl, hds]
  show (if n.data ≠ [] ∧ '/' ∉ n.data then some (String.mk n.data) else none) = some n
  rw [if_pos ⟨hn.1, hn.2.2.2⟩, mk_data_eq]

/-- A stored direct child of a directory appears in `ReadDir`'s sorted
name list. -/
theorem mem_child_names {fs : FS} {dirp n : String} {e : Entry}
    (hn : SimpleSeg n.data)
    (hlk : fs.lookup (String.mk (dirp.data ++ '/' :: n.data)) = some e) :
    n ∈ List.insertionSort (fun a b : String => lexLe a.data b.data = true)
      (fs.entries.filterMap (fun kv => childNameOf dirp kv.1)) := by
  have hmem : (String.mk (dirp.data ++ '/' :: n.data), e) ∈ fs.entries :=
    assocFind_some_mem hlk
  have hfm : n ∈ fs.entries.filterMap (fun kv => childNameOf dirp kv.1) :=
    List.mem_filterMap.mpr ⟨_, hmem, childNameOf_literal hn⟩
  exact ((List.perm_insertionSort _ _).mem_iff).mpr hfm

/-- If the loop of `ReadAll` succeeds, it returns the raw content of
every listed name it could read. -/
theorem readEach_ok_mem {fs : FS} {dir : String} {n b : String} :
    ∀ (names bs : List String), n ∈ names →
      readFileGo fs (join2 dir n) = .ok b →
      readEach fs dir names = .ok bs → b ∈ bs := by
  intro names
  induction names with
  | nil =>
    intro bs hn _ _
    cases hn
  | cons n0 rest ih =>
    intro bs hn hb h
    rw [readEach] at h
    cases hrf : readFileGo fs (join2 dir n0) with
    | error e =>
      rw [hrf] at h
      exact Except.noConfusion h
    | ok b0 =>
      rw [hrf] at h
      cases hre : readEach fs dir rest with
      | error e =>
        rw [hre] at h
        exact Except.noConfusion h
      | ok bs0 =>
        rw [hre] at h
        have hbs : b0 :: bs0 = bs := by injection h
        subst hbs
        cases hn with
        | head =>
          rw [hb] at hrf
          have hb0 : b = b0 := by injection hrf
          subst hb0
          exact List.mem_cons_self b bs0
        | tail _ hn' =>
          exact List.mem_cons_of_mem _ (ih bs0 hn' hb hre)

/-- If any listed name cannot be read as a file, the loop of `ReadAll`
never returns a list. -/
theorem readEach_not_ok {fs : FS} {dir : String} {n : String} :
    ∀ (names : List String), n ∈ names →
      (∀ b, readFileGo fs (join2 dir n) ≠ .ok b) →
      ∀ bs, readEach fs dir names ≠ .ok bs := by
  intro names
  induction names with
  | nil =>
    intro hn
    cases hn
  | cons n0 rest ih =>
    intro hn hnf bs h
    rw [readEach] at h
    cases hrf : readFileGo fs (join2 dir n0) with
    | error e =>
      rw [hrf] at h
      exact Except.noConfusion h
    | ok b0 =>
      rw [hrf] at h
      cases hn with
      | head => exact hnf b0 hrf
      | tail _ hn' =>
        cases hre : readEach fs dir rest with
        | error e =>
          rw [hre] at h
          exact Except.noConfusion h
        | ok bs0 => exact ih hn' hnf bs0 hre

/-- Claim C10: on an existing accessible collection directory (normal
root, simple collection name), a successful `ReadAll` returns the raw
content of every readable direct entry regardless of its filename —
including files without the `.json` suffix, such as a leftover
`.json.tmp` — and if any direct entry is a subdirectory the whole call
aborts: it never returns a list. -/
theorem claim_C10_readAll_raw (d : Driver) (fs : FS) (c : String)
    (hroot : NormalPath d.dir) (hc : SimpleSeg c.data)
    (hdir : fs.lookup (join2 d.dir c) = some .dir)
    (hden : join2 d.dir c ∉ fs.denied) :
    (∀ bs, d.readAll fs c = .ok bs →
      ∀ n b, SimpleSeg n.data →
        fs.lookup (join2 (join2 d.dir c) n) = some (.file b) →
        join2 (join2 d.dir c) n ∉ fs.denied →
        b ∈ bs) ∧
    (∀ n, SimpleSeg n.data →
      fs.lookup (join2 (join2 d.dir c) n) = some .dir →
      ∀ bs, d.readAll fs c ≠ .ok bs) := by
  have hcne : c ≠ "" := simpleSeg_ne_empty hc
  have hdirN : NormalPath (join2 d.dir c) := by
    rw [join2_normal hroot (simpleName_normal hc)]
    exact normalPath_append_seg hroot hc
  have hstat : statJson fs (join2 d.dir c) = .ok .dir := by
    rw [statJson, osStat, if_neg hden, hdir]
  have hrd : readDirGo fs (join2 d.dir c) = .ok
      (List.insertionSort (fun a b : String => lexLe a.data b.data = true)
        (fs.entries.filterMap (fun kv => childNameOf (join2 d.dir c) kv.1))) := by
    rw [readDirGo, if_neg hden, hdir]
  constructor
  · intro bs hok n b hn hlk hnden
    simp only [Driver.readAll, if_neg hcne, hstat, hrd] at hok
    have hj : join2 (join2 d.dir c) n =
        String.mk ((join2 d.dir c).data ++ '/' :: n.data) :=
      join2_normal hdirN (simpleName_normal hn)
    have hmem := mem_child_names hn (by rw [← hj]; exact hlk)
    have hrf : readFileGo fs (join2 (join2 d.dir c) n) = .ok b := by
      rw [readFileGo, if_neg hnden, hlk]
    exact readEach_ok_mem _ bs hmem hrf hok
  · intro n hn hlk bs hok
    simp only [Driver.readAll, if_neg hcne, hstat, hrd] at hok
    have hj : join2 (join2 d.dir c) n =
        String.mk ((join2 d.dir c).data ++ '/' :: n.data) :=
      join2_normal hdirN (simpleName_normal hn)
    have hmem := mem_child_names hn (by rw [← hj]; exact hlk)
    refine readEach_not_ok _ hmem ?_ bs hok
    intro b hb
    rw [readFileGo] at hb
    by_cases hd : join2 (join2 d.dir c) n ∈ fs.denied
    · rw [if_pos hd] at hb
      exact Except.noConfusion hb
    · rw [if_neg hd, hlk] at hb
      exact Except.noConfusion hb

/-- Claim C10, witness: a collection holding a `.json` record and a
leftover `.json.tmp` file — `ReadAll` returns both raw contents. -/
theorem claim_C10_readAll_raw_witness :
    (⟨"db", []⟩ : Driver).readAll
      ⟨[("db", Entry.dir), ("db/users", Entry.dir),
        ("db/users/John.json", Entry.file "A"),
        ("db/users/Stray.json.tmp", Entry.file "B")], []⟩ "users" =
      .ok ["A", "B"] ∧ "B" ∈ ["A", "B"] := by
  refine ⟨by decide, ?_⟩
  exact (claim_C10_readAll_raw ⟨"db", []⟩
    ⟨[("db", Entry.dir), ("db/users", Entry.dir),
      ("db/users/John.json", Entry.file "A"),
      ("db/users/Stray.json.tmp", Entry.file "B")], []⟩ "users"
    (by decide) (by decide) (by decide) (by decide)).1 ["A", "B"] (by decide)
    "Stray.json.tmp" "B" (by decide) (by decide) (by decide)

/-- Claim C1, witness: a concrete successful write/read round trip. -/
theorem claim_C1_roundtrip_witness :
    ((⟨"db", []⟩ : Driver).write ⟨[("db", Entry.dir)], []⟩ "users" "John" GoVal.null).1.read
      (((⟨"db", []⟩ : Driver).write ⟨[("db", Entry.dir)], []⟩ "users" "John"
        GoVal.null).2.1) "users" "John" = .ok GoVal.null := by
  exact claim_C1_roundtrip ⟨"db", []⟩ ⟨[("db", Entry.dir)], []⟩ "users" "John" GoVal.null
    _ _ (by decide) (by decide) (by decide) (by decide) (by decide) (by decide)

end GoDB
